import Mathlib

/-!
Verification of the OpenClaw memory-index core against its specification.

The definitions below are a shallow embedding of the TypeScript sources:
`src/memory/manager-types.ts` (MemoryIndexManager: search, reindex, swap)
and the module holding `MemorySyncer` and `EmbeddingManager`
(runSync, embedBatchWithRetry, buildEmbeddingBatches, embedChunks,
pruneEmbeddingCacheIfNeeded, activateFallback, recordBatchFailure).
Stateful code is modelled by explicit state passing; fallible code returns
`Except`; JavaScript numbers that only ever hold integers are `Nat`/`Int`,
scores and delays are `Rat`.
-/

namespace OpenClaw

/-! ### Sync decision (`MemorySyncer.runSync`, lines 530-540)

The stored meta record (`MemoryIndexMeta`): optional fields are `Option`,
`providerKey` and `vectorDims` are optional in the TS type. -/

structure MemoryIndexMeta where
  model : String
  provider : String
  providerKey : Option String
  chunkTokens : Int
  chunkOverlap : Int
  vectorDims : Option Nat
deriving DecidableEq, Repr

/-- JavaScript falsiness of `meta?.vectorDims`: `undefined` and `0` are falsy. -/
def jsFalsyDims : Option Nat → Bool
  | none => true
  | some d => d == 0

/-- The `needsFullReindex` expression of `runSync`.  `vectorReady` is the value
of `await this.ctx.ensureVectorReady()`; the `meta.x !== y` comparisons are
strict inequality; `!meta` short-circuits the member accesses. -/
def needsFullReindex (force : Bool) (meta : Option MemoryIndexMeta)
    (curModel curProvider curProviderKey : String)
    (cfgTokens cfgOverlap : Int) (vectorReady : Bool) : Bool :=
  force ||
    (match meta with
     | none => true
     | some m =>
       (m.model != curModel) ||
       (m.provider != curProvider) ||
       (m.providerKey != some curProviderKey) ||
       (m.chunkTokens != cfgTokens) ||
       (m.chunkOverlap != cfgOverlap) ||
       (vectorReady && jsFalsyDims m.vectorDims))

/-- The action `runSync` takes on its primary path: route the sync through
`ctx.reindex(cb)` or run the sync logic directly on the live store. -/
inductive SyncAction where
  | reindex
  | direct
deriving DecidableEq, Repr

/-- `runSync` invokes `this.ctx.reindex(...)` exactly when `needsFullReindex`
is true, and otherwise calls `performSyncLogic` on the live store. -/
def runSyncAction (force : Bool) (meta : Option MemoryIndexMeta)
    (curModel curProvider curProviderKey : String)
    (cfgTokens cfgOverlap : Int) (vectorReady : Bool) : SyncAction :=
  if needsFullReindex force meta curModel curProvider curProviderKey
      cfgTokens cfgOverlap vectorReady then
    SyncAction.reindex
  else
    SyncAction.direct

/-! ### Greedy batch packing (`EmbeddingManager.buildEmbeddingBatches`)

The function is generic in the byte estimator: the source calls the external
helper `estimateUtf8Bytes(chunk.text)`; here `est` abstracts it. -/

def EMBEDDING_BATCH_MAX_TOKENS : Nat := 8000

/-- Loop body of `buildEmbeddingBatches`, recursing over the chunk list while
carrying the open sub-batch `current` and its running estimate `tok`
(`currentTokens` in the source).  The `wouldExceed` flush and the oversized
singleton case follow the source line by line. -/
def buildBatchesGo {α : Type} (est : α → Nat) :
    List α → Nat → List α → List (List α)
  | [], _, [] => []
  | x :: xs, _, [] => [x :: xs]
  | [], _, c :: rest =>
    if est c > EMBEDDING_BATCH_MAX_TOKENS then
      [c] :: buildBatchesGo est [] 0 rest
    else
      buildBatchesGo est [c] (est c) rest
  | x :: xs, tok, c :: rest =>
    if tok + est c > EMBEDDING_BATCH_MAX_TOKENS then
      if est c > EMBEDDING_BATCH_MAX_TOKENS then
        (x :: xs) :: [c] :: buildBatchesGo est [] 0 rest
      else
        (x :: xs) :: buildBatchesGo est [c] (est c) rest
    else
      buildBatchesGo est (x :: xs ++ [c]) (tok + est c) rest

/-- `EmbeddingManager.buildEmbeddingBatches`. -/
def buildEmbeddingBatches {α : Type} (est : α → Nat) (chunks : List α) :
    List (List α) :=
  buildBatchesGo est [] 0 chunks

/-! ### Retry policy (`EmbeddingManager.embedBatchWithRetry`)

The retryability test is a regular expression on the error message:
`/(rate[_ ]limit|too many requests|429|resource has been exhausted|5\d\d|cloudflare)/i`.
It is embedded as case-insensitive substring search plus a scan for a `5`
followed by two digits. -/

def EMBEDDING_RETRY_MAX_ATTEMPTS : Nat := 3
def EMBEDDING_RETRY_BASE_DELAY_MS : Rat := 500
def EMBEDDING_RETRY_MAX_DELAY_MS : Rat := 8000

/-- Does `needle` occur at the head of `hay`? -/
def seqStartsWith : List Char → List Char → Bool
  | _, [] => true
  | [], _ :: _ => false
  | h :: hs, n :: ns => h == n && seqStartsWith hs ns

/-- Does `needle` occur anywhere inside `hay`? -/
def seqContains : List Char → List Char → Bool
  | [], needle => needle.isEmpty
  | h :: hs, needle => seqStartsWith (h :: hs) needle || seqContains hs needle

/-- The `5\d\d` alternative of the retryability regex: a `5` followed by two
digits somewhere in the message. -/
def hasFiveDigitDigit : List Char → Bool
  | '5' :: a :: b :: rest =>
    (a.isDigit && b.isDigit) || hasFiveDigitDigit (a :: b :: rest)
  | _ :: rest => hasFiveDigitDigit rest
  | [] => false

/-- Lower-cased character view of a message (the regex is `/i`). -/
def lowerChars (s : String) : List Char :=
  s.toList.map Char.toLower

/-- `EmbeddingManager.isRetryableEmbeddingError`. -/
def isRetryableEmbeddingError (message : String) : Bool :=
  let h := lowerChars message
  seqContains h "rate_limit".toList ||
  seqContains h "rate limit".toList ||
  seqContains h "too many requests".toList ||
  seqContains h "429".toList ||
  seqContains h "resource has been exhausted".toList ||
  hasFiveDigitDigit h ||
  seqContains h "cloudflare".toList

/-- JavaScript `Math.round` on a non-negative value: floor of `x + 1/2`. -/
def jsRound (x : Rat) : Rat :=
  ((x + 1/2).floor : Int)

/-- One observable run of `embedBatchWithRetry`: the final outcome, the number
of provider calls made, and the waits slept between calls. -/
structure RetryRun where
  outcome : Except String (List (List Rat))
  calls : Nat
  waits : List Rat
deriving Repr

/-- The retry loop.  `outcomes n` is what the `n`-th provider call does
(counting from 0 across the whole run); `jitter n` is the `Math.random()`
value drawn before the `n`-th retry sleep.  `retriesLeft` counts the retries
the `attempt >= EMBEDDING_RETRY_MAX_ATTEMPTS` guard still allows: the loop
starts with `attempt = 0`, so `retriesLeft = EMBEDDING_RETRY_MAX_ATTEMPTS`. -/
def embedBatchRetryGo (outcomes : Nat → Except String (List (List Rat)))
    (jitter : Nat → Rat) : Nat → Rat → Nat → RetryRun
  | callIdx, _, 0 =>
    match outcomes callIdx with
    | Except.ok v => ⟨Except.ok v, callIdx + 1, []⟩
    | Except.error e => ⟨Except.error e, callIdx + 1, []⟩
  | callIdx, delayMs, r + 1 =>
    match outcomes callIdx with
    | Except.ok v => ⟨Except.ok v, callIdx + 1, []⟩
    | Except.error e =>
      if isRetryableEmbeddingError e then
        let waitMs :=
          min EMBEDDING_RETRY_MAX_DELAY_MS
            (jsRound (delayMs * (1 + jitter callIdx * (1/5))))
        let rest := embedBatchRetryGo outcomes jitter (callIdx + 1) (delayMs * 2) r
        ⟨rest.outcome, rest.calls, waitMs :: rest.waits⟩
      else
        ⟨Except.error e, callIdx + 1, []⟩

/-- `EmbeddingManager.embedBatchWithRetry`: empty input returns immediately
without any provider call; otherwise the retry loop runs with base delay
500ms and at most `EMBEDDING_RETRY_MAX_ATTEMPTS` retries. -/
def embedBatchWithRetry (textsEmpty : Bool)
    (outcomes : Nat → Except String (List (List Rat)))
    (jitter : Nat → Rat) : RetryRun :=
  if textsEmpty then ⟨Except.ok [], 0, []⟩
  else
    embedBatchRetryGo outcomes jitter 0 EMBEDDING_RETRY_BASE_DELAY_MS
      EMBEDDING_RETRY_MAX_ATTEMPTS

/-! ### Batch-failure counting and provider fallback (`EmbeddingManager`)

The mutable fields touched by `recordBatchFailure`, `resetBatchFailureCount`
and `activateFallback`, as one state record.  The `batchFailureLock` mutex
serialises these operations in the source; here they are already atomic
state transitions, so the lock needs no model. -/

def BATCH_FAILURE_LIMIT : Nat := 2

inductive ProviderId where
  | openai
  | gemini
  | voyage
  | localProvider
deriving DecidableEq, Repr

structure EmbedMgrState where
  providerId : ProviderId
  hasOpenAi : Bool
  hasGemini : Bool
  hasVoyage : Bool
  fallbackFrom : Option ProviderId
  batchEnabled : Bool
  batchFailureCount : Nat
deriving DecidableEq, Repr

/-- Static settings read by the manager.  `fallback = none` stands for both an
absent setting and the literal `"none"` (the source refuses in both cases). -/
structure EmbedSettings where
  batchSettingEnabled : Bool
  fallback : Option ProviderId
deriving DecidableEq, Repr

/-- What `createEmbeddingProvider` hands back when a fallback provider is
constructed: the new provider and its per-family clients. -/
structure ProviderResult where
  id : ProviderId
  hasOpenAi : Bool
  hasGemini : Bool
  hasVoyage : Bool
deriving DecidableEq, Repr

/-- `EmbeddingManager.resolveBatchConfig().enabled`: the settings flag and a
batch-capable client matching the current provider. -/
def resolveBatchEnabled (cfg : EmbedSettings) (id : ProviderId)
    (hasOpenAi hasGemini hasVoyage : Bool) : Bool :=
  cfg.batchSettingEnabled &&
    ((hasOpenAi && id == ProviderId.openai) ||
     (hasGemini && id == ProviderId.gemini) ||
     (hasVoyage && id == ProviderId.voyage))

/-- `EmbeddingManager.recordBatchFailure`: returns the `{disabled, count}`
record alongside the successor state. -/
def recordBatchFailure (attempts : Nat) (forceDisable : Bool)
    (s : EmbedMgrState) : (Bool × Nat) × EmbedMgrState :=
  if !s.batchEnabled then
    ((true, s.batchFailureCount), s)
  else
    let increment := if forceDisable then BATCH_FAILURE_LIMIT else max 1 attempts
    let count := s.batchFailureCount + increment
    let disabled := forceDisable || decide (count ≥ BATCH_FAILURE_LIMIT)
    ((disabled, count),
      { s with
        batchFailureCount := count
        batchEnabled := if disabled then false else s.batchEnabled })

/-- `EmbeddingManager.resetBatchFailureCount` (run on every batch success). -/
def resetBatchFailureCount (s : EmbedMgrState) : EmbedMgrState :=
  { s with batchFailureCount := 0 }

/-- `EmbeddingManager.activateFallback`: refuse when no usable fallback is
configured, when it names the current provider, or when a fallback already
happened; otherwise swap in the provider built by `createEmbeddingProvider`
(`res`), record `fallbackFrom`, and re-resolve the batch configuration. -/
def activateFallback (cfg : EmbedSettings) (res : ProviderResult)
    (s : EmbedMgrState) : Bool × EmbedMgrState :=
  match cfg.fallback with
  | none => (false, s)
  | some f =>
    if f = s.providerId then (false, s)
    else if s.fallbackFrom.isSome then (false, s)
    else
      (true,
        { providerId := res.id
          hasOpenAi := res.hasOpenAi
          hasGemini := res.hasGemini
          hasVoyage := res.hasVoyage
          fallbackFrom := some s.providerId
          batchEnabled :=
            resolveBatchEnabled cfg res.id res.hasOpenAi res.hasGemini res.hasVoyage
          batchFailureCount := s.batchFailureCount })

/-- The operations that touch this state during a manager's lifetime. -/
inductive MgrOp where
  | record (attempts : Nat) (forceDisable : Bool)
  | reset
  | fallback (cfg : EmbedSettings) (res : ProviderResult)
deriving Repr

def MgrOp.isFallback : MgrOp → Bool
  | MgrOp.fallback _ _ => true
  | _ => false

def mgrStep (s : EmbedMgrState) : MgrOp → EmbedMgrState
  | MgrOp.record attempts forceDisable => (recordBatchFailure attempts forceDisable s).2
  | MgrOp.reset => resetBatchFailureCount s
  | MgrOp.fallback cfg res => (activateFallback cfg res s).2

def mgrRun (s : EmbedMgrState) (ops : List MgrOp) : EmbedMgrState :=
  ops.foldl mgrStep s

/-- Number of `activateFallback` calls in `ops` that succeed when run from
`s`. -/
def countFallbackSuccesses (s : EmbedMgrState) : List MgrOp → Nat
  | [] => 0
  | op :: rest =>
    let hit :=
      match op with
      | MgrOp.fallback cfg res => if (activateFallback cfg res s).1 then 1 else 0
      | _ => 0
    hit + countFallbackSuccesses (mgrStep s op) rest

/-! ### Embedding-cache pruning (`EmbeddingManager.pruneEmbeddingCacheIfNeeded`)

The `embedding_cache` table is a list of rows carrying their SQLite `rowid`
and `updated_at`.  `ORDER BY updated_at ASC LIMIT excess` is modelled by a
stable insertion sort on `updated_at`. -/

structure CacheRow where
  rowid : Nat
  updatedAt : Int
deriving DecidableEq, Repr

def cacheRowLe (a b : CacheRow) : Prop :=
  a.updatedAt ≤ b.updatedAt

instance : DecidableRel cacheRowLe := fun a b =>
  inferInstanceAs (Decidable (a.updatedAt ≤ b.updatedAt))

instance : IsTotal CacheRow cacheRowLe :=
  ⟨fun a b => Int.le_total a.updatedAt b.updatedAt⟩

instance : IsTrans CacheRow cacheRowLe :=
  ⟨fun _ _ _ hab hbc => le_trans hab hbc⟩

/-- The rows selected by the `DELETE ... ORDER BY updated_at ASC LIMIT excess`
subquery. -/
def pruneVictims (rows : List CacheRow) (excess : Nat) : List CacheRow :=
  (List.insertionSort cacheRowLe rows).take excess

/-- `EmbeddingManager.pruneEmbeddingCacheIfNeeded`: no-op when caching is
disabled or `maxEntries` is unset/non-positive or the count fits; otherwise
delete the `count - max` rows with the smallest `updated_at`. -/
def pruneEmbeddingCacheIfNeeded (cacheEnabled : Bool) (maxEntries : Option Int)
    (rows : List CacheRow) : List CacheRow :=
  if !cacheEnabled then rows
  else
    match maxEntries with
    | none => rows
    | some m =>
      if m ≤ 0 then rows
      else if (rows.length : Int) ≤ m then rows
      else
        let excess := rows.length - m.toNat
        let victims := (pruneVictims rows excess).map CacheRow.rowid
        rows.filter (fun r => !victims.contains r.rowid)

/-! ### Hybrid merge and the search pipeline (`MemoryIndexManager.search`)

Results are reduced to `(id, score)`; the remaining columns (path, lines,
snippet) ride along unchanged in the source and carry no logic. -/

structure ScoredResult where
  id : String
  score : Rat
deriving DecidableEq, Repr

/-- Descending order on combined scores. -/
def scoreGe (a b : ScoredResult) : Prop :=
  b.score ≤ a.score

instance : DecidableRel scoreGe := fun a b =>
  inferInstanceAs (Decidable (b.score ≤ a.score))

instance : IsTotal ScoredResult scoreGe :=
  ⟨fun a b => le_total b.score a.score⟩

instance : IsTrans ScoredResult scoreGe :=
  ⟨fun _ _ _ hab hbc => le_trans hbc hab⟩

/-- Score of `i` on one side of the merge (first entry with that id); a
missing side scores 0. -/
def sideScore (l : List (String × Rat)) (i : String) : Rat :=
  match l with
  | [] => 0
  | p :: rest => if p.1 = i then p.2 else sideScore rest i

/-- Modelled from the spec: `mergeHybridResults` is implemented in
`src/memory/hybrid.ts`, which is not among the provided sources (only
its import and call sites in `MemoryIndexManager` are).  Spec section 4.4:
union by `id` of the vector and keyword results, each scored
`vectorWeight * vScore + textWeight * tScore` with a missing side treated
as 0, sorted descending by the combined score. -/
def mergeHybridResults (vector keyword : List (String × Rat))
    (vectorWeight textWeight : Rat) : List ScoredResult :=
  let vIds := vector.map Prod.fst
  let kIds := (keyword.map Prod.fst).filter (fun i => decide (i ∉ vIds))
  let entries := (vIds ++ kIds).map (fun i =>
    ScoredResult.mk i (vectorWeight * sideScore vector i + textWeight * sideScore keyword i))
  List.insertionSort scoreGe entries

/-- The tail of `MemoryIndexManager.search` (source lines 235-242): filter the
merged entries by `entry.score >= minScore` and `slice(0, maxResults)`. -/
def searchFilterTruncate (entries : List ScoredResult) (minScore : Rat)
    (maxResults : Nat) : List ScoredResult :=
  (entries.filter (fun e => minScore ≤ e.score)).take maxResults

/-- Inputs of one `search()` call with the outcome of each suspending
sub-operation made explicit: the keyword scan, the query embedding, and the
vector scan each either produce rows or throw. -/
structure SearchInput where
  queryBlank : Bool
  hybridEnabled : Bool
  keywordOutcome : Except String (List (String × Rat))
  embedOutcome : Except String (List Rat)
  vectorOutcome : Except String (List (String × Rat))
  vectorWeight : Rat
  textWeight : Rat
  minScore : Rat
  maxResults : Nat

/-- `MemoryIndexManager.search` (source lines 209-243).  The keyword scan and
the vector scan are guarded by `.catch(() => [])`; the call to
`embedQueryWithTimeout` on line 225 has no such guard, so its rejection
propagates.  An all-zero query vector skips the vector scan. -/
def search (inp : SearchInput) : Except String (List ScoredResult) :=
  if inp.queryBlank then Except.ok []
  else
    let keywordResults :=
      if inp.hybridEnabled then
        match inp.keywordOutcome with
        | Except.ok r => r
        | Except.error _ => []
      else []
    match inp.embedOutcome with
    | Except.error e => Except.error e
    | Except.ok queryVec =>
      let hasVector := queryVec.any (fun v => v != 0)
      let vectorResults :=
        if hasVector then
          match inp.vectorOutcome with
          | Except.ok r => r
          | Except.error _ => []
        else []
      if !inp.hybridEnabled then
        Except.ok (searchFilterTruncate
          (vectorResults.map (fun p => ScoredResult.mk p.1 p.2))
          inp.minScore inp.maxResults)
      else
        Except.ok (searchFilterTruncate
          (mergeHybridResults vectorResults keywordResults
            inp.vectorWeight inp.textWeight)
          inp.minScore inp.maxResults)

/-! ### Crash-safe reindex (`MemoryIndexManager.reindex` and
`swapIndexFiles`)

The manager state visible to the claim: which database handle `this.db`
holds, the FTS/vector availability flags, and the on-disk files.  Handles
are numbered: 0 is the handle open at reindex entry, 1 the temp-store
handle, 2 a handle freshly opened at the live path afterwards.  File moves
(`moveIndexFiles` over the `""`/`-wal`/`-shm` suffixes) are modelled as
atomic per base path; the meta record rides inside the file content. -/

structure IndexFs where
  liveMeta : Option Nat
  tempExists : Bool
  tempMeta : Option Nat
  backupExists : Bool
  backupMeta : Option Nat
deriving DecidableEq, Repr

structure ManagerState where
  dbHandle : Nat
  dbAtLivePath : Bool
  ftsAvailable : Bool
  ftsLoadError : Option Nat
  vectorAvailable : Option Bool
  vectorLoadError : Option Nat
  vectorDims : Option Nat
  vectorReadyRef : Option Nat
  fs : IndexFs
deriving DecidableEq, Repr

/-- Which step of `reindex` throws (if any).  The steps are in source order:
cache seeding, the `cb()` callback, `writeMeta(nextMeta)`, cache pruning,
the two renames inside `swapIndexFiles`, deleting the backup, and reopening
the live store. -/
inductive ReindexFail where
  | seed
  | cb
  | writeMetaStep
  | prune
  | swapLiveToBackup
  | swapTempToLive
  | removeBackup
  | reopen
  | noFail
deriving DecidableEq, Repr

/-- The failure points the claim speaks about: "before the file swap
completes", i.e. everything up to and including the renames of
`swapIndexFiles` that have not yet produced the new live file. -/
def ReindexFail.beforeSwapComplete : ReindexFail → Bool
  | ReindexFail.seed => true
  | ReindexFail.cb => true
  | ReindexFail.writeMetaStep => true
  | ReindexFail.prune => true
  | ReindexFail.swapLiveToBackup => true
  | ReindexFail.swapTempToLive => true
  | _ => false

/-- The failure points at which both stores are still open, so
`restoreOriginalState` runs with `originalDbClosed = false`. -/
def ReindexFail.beforeClose : ReindexFail → Bool
  | ReindexFail.seed => true
  | ReindexFail.cb => true
  | ReindexFail.writeMetaStep => true
  | ReindexFail.prune => true
  | _ => false

/-- Extra inputs of a reindex run: what `cb()` leaves in the transient flags
of the temp store, the meta value computed afterwards, and whether
`ensureSchema` finds FTS available on each fresh store. -/
structure ReindexParams where
  tempFtsOk : Bool
  tempFtsError : Option Nat
  cbVectorAvailable : Option Bool
  cbVectorDims : Option Nat
  nextMetaVal : Nat
  reopenFtsOk : Bool
  reopenFtsError : Option Nat
deriving Repr

/-- `restoreOriginalState` (source lines 563-575) followed by the `throw` of
the catch block; `removeIndexFiles(tempDbPath)` has already run. -/
def reindexCatch (init : ManagerState) (fsNow : IndexFs)
    (originalDbClosed : Bool) : ManagerState :=
  { dbHandle := if originalDbClosed then 2 else init.dbHandle
    dbAtLivePath := true
    ftsAvailable := init.ftsAvailable
    ftsLoadError := init.ftsLoadError
    vectorAvailable := if originalDbClosed then none else init.vectorAvailable
    vectorLoadError := init.vectorLoadError
    vectorDims := init.vectorDims
    vectorReadyRef := if originalDbClosed then none else init.vectorReadyRef
    fs := { fsNow with tempExists := false, tempMeta := none } }

/-- One run of `MemoryIndexManager.reindex` with a failure injected at `fp`
(or none).  Returns the final manager state and whether the call threw. -/
def reindexRun (init : ManagerState) (p : ReindexParams) (fp : ReindexFail) :
    ManagerState × Bool :=
  -- open the temp store, redirect `this.db`, clear transient flags,
  -- `ensureSchema()` on the temp store
  let fs0 : IndexFs := { init.fs with tempExists := true, tempMeta := none }
  if fp = ReindexFail.seed then
    (reindexCatch init fs0 false, true)
  else if fp = ReindexFail.cb then
    (reindexCatch init fs0 false, true)
  else if fp = ReindexFail.writeMetaStep then
    (reindexCatch init fs0 false, true)
  else
    -- `writeMeta(nextMeta)` went to the temp store
    let fs1 : IndexFs := { fs0 with tempMeta := some p.nextMetaVal }
    if fp = ReindexFail.prune then
      (reindexCatch init fs1 false, true)
    else
      -- both stores closed; `originalDbClosed = true`
      if fp = ReindexFail.swapLiveToBackup then
        -- the first rename failed atomically: nothing moved
        (reindexCatch init fs1 true, true)
      else
        -- live -> backup succeeded
        let fs2 : IndexFs :=
          { fs1 with backupExists := true, backupMeta := init.fs.liveMeta, liveMeta := none }
        if fp = ReindexFail.swapTempToLive then
          -- temp -> live failed; `swapIndexFiles` restores backup -> live
          let fs3 : IndexFs :=
            { fs2 with liveMeta := fs2.backupMeta, backupExists := false, backupMeta := none }
          (reindexCatch init fs3 true, true)
        else
          -- temp -> live succeeded
          let fs4 : IndexFs :=
            { fs2 with liveMeta := fs1.tempMeta, tempExists := false, tempMeta := none }
          if fp = ReindexFail.removeBackup then
            (reindexCatch init fs4 true, true)
          else
            let fs5 : IndexFs := { fs4 with backupExists := false, backupMeta := none }
            if fp = ReindexFail.reopen then
              (reindexCatch init fs5 true, true)
            else
              -- reopen at the live path, reset transient flags, set dims from meta
              ({ dbHandle := 2
                 dbAtLivePath := true
                 ftsAvailable := p.reopenFtsOk
                 ftsLoadError := p.reopenFtsError
                 vectorAvailable := none
                 vectorLoadError := none
                 vectorDims :=
                   if p.cbVectorAvailable = some true && p.cbVectorDims.isSome then
                     p.cbVectorDims
                   else none
                 vectorReadyRef := none
                 fs := fs5 }, false)

/-! ### Chunk embedding (`EmbeddingManager.embedChunks` and its two paths)

A chunk is reduced to the fields the embedding pipeline reads: its content
hash (the cache key), its byte estimate (`estimateUtf8Bytes(chunk.text)`,
an external helper), and its line range (part of the remote `custom_id`).
The cache lookup, the online provider, and the remote-batch result are
explicit parameters; the claim is about runs that return normally, so the
provider outcomes are values, with `batchOutcome = none` standing for a
failed or disabled remote batch (which falls back to the online path). -/

structure MemoryChunk where
  hash : String
  est : Nat
  startLine : Nat
  endLine : Nat
deriving DecidableEq, Repr

/-- The cache test of the scan loop: `chunk?.hash ? cached.get(chunk.hash) :
undefined` followed by `hit && hit.length > 0`.  An empty hash never hits
(`""` is falsy) and a cached empty vector counts as a miss. -/
def chunkCacheHit (cacheLookup : String → Option (List Rat))
    (c : MemoryChunk) : Option (List Rat) :=
  if c.hash == "" then none
  else
    match cacheLookup c.hash with
    | some v => if v.isEmpty then none else some v
    | none => none

/-- Chunks paired with their 0-based index, starting at `n`. -/
def indexedFrom {α : Type} (n : Nat) : List α → List (Nat × α)
  | [] => []
  | c :: rest => (n, c) :: indexedFrom (n + 1) rest

/-- The `embeddings[i] = hit` writes of the scan loop. -/
def hitAssignments (cacheLookup : String → Option (List Rat))
    (chunks : List MemoryChunk) : List (Nat × List Rat) :=
  (indexedFrom 0 chunks).filterMap (fun p =>
    (chunkCacheHit cacheLookup p.2).map (fun v => (p.1, v)))

/-- The `missing` list of the scan loop: index/chunk pairs without a usable
cache hit, in input order. -/
def missingItems (cacheLookup : String → Option (List Rat))
    (chunks : List MemoryChunk) : List (Nat × MemoryChunk) :=
  (indexedFrom 0 chunks).filter (fun p => (chunkCacheHit cacheLookup p.2).isNone)

/-- `const embeddings = Array.from({length: n}, () => [])` followed by a
sequence of index assignments.  `List.set` out of range is a no-op, exactly
like the source never writes out of range. -/
def applyAssigns (n : Nat) (assigns : List (Nat × List Rat)) : List (List Rat) :=
  assigns.foldl (fun acc p => acc.set p.1 p.2) (List.replicate n [])

/-- The cursor loop of `embedChunksInBatches`: walk the sub-batches, query the
provider per batch, and assign `batchEmbeddings[i] ?? []` to the original
index `missing[cursor + i].index` (skipping when that item is absent). -/
def assignBatches (provider : List MemoryChunk → List (List Rat))
    (missing : List (Nat × MemoryChunk)) :
    List (List MemoryChunk) → Nat → List (Nat × List Rat)
  | [], _ => []
  | batch :: rest, cursor =>
    let res := provider batch
    ((List.range batch.length).filterMap (fun i =>
      match missing.get? (cursor + i) with
      | some item => some (item.1, res.getD i [])
      | none => none)) ++ assignBatches provider missing rest (cursor + batch.length)

/-- `EmbeddingManager.embedChunksInBatches` (the cache-plus-online path). -/
def embedChunksInBatches (cacheLookup : String → Option (List Rat))
    (provider : List MemoryChunk → List (List Rat))
    (chunks : List MemoryChunk) : List (List Rat) :=
  if chunks.isEmpty then []
  else
    let hits := hitAssignments cacheLookup chunks
    let missing := missingItems cacheLookup chunks
    if missing.isEmpty then applyAssigns chunks.length hits
    else
      let batches := buildEmbeddingBatches MemoryChunk.est (missing.map Prod.snd)
      applyAssigns chunks.length (hits ++ assignBatches provider missing batches 0)

/-- Lookup in a JavaScript `Map` built by iterated `set`: the last entry
written for a key wins. -/
def mapLookupLast {β : Type} (l : List (String × β)) (k : String) : Option β :=
  (l.reverse.find? (fun p => p.1 == k)).map Prod.snd

/-- `EmbeddingManager.embedChunksWithGenericBatch` (shared by the OpenAI,
Gemini and Voyage remote-batch paths).  `customId i c` stands for
`hashText(source:path:startLine:endLine:chunkHash:index)`; `batchOutcome`
is the `custom_id -> vector` map a successful remote batch returns, `none`
when the batch is disabled or its run (plus fallback handling) failed, in
which case the call falls back to `embedChunksInBatches` over all chunks. -/
def embedChunksWithGenericBatch (cacheLookup : String → Option (List Rat))
    (customId : Nat → MemoryChunk → String)
    (batchOutcome : Option (List (String × List Rat)))
    (provider : List MemoryChunk → List (List Rat))
    (chunks : List MemoryChunk) : List (List Rat) :=
  if chunks.isEmpty then []
  else
    let hits := hitAssignments cacheLookup chunks
    let missing := missingItems cacheLookup chunks
    if missing.isEmpty then applyAssigns chunks.length hits
    else
      match batchOutcome with
      | none => embedChunksInBatches cacheLookup provider chunks
      | some byId =>
        let mapping := missing.map (fun p => (customId p.1 p.2, (p.1, p.2.hash)))
        let assigns := byId.filterMap (fun q =>
          match mapLookupLast mapping q.1 with
          | some ih => some (ih.1, q.2)
          | none => none)
        applyAssigns chunks.length (hits ++ assigns)

/-- `EmbeddingManager.embedChunks`: the remote-batch path is taken only when
batch mode is enabled and both `entry` and `source` were provided and a
matching provider-family client exists; otherwise the online path runs. -/
def embedChunks (batchEnabled entryAndSourceGiven hasClient : Bool)
    (cacheLookup : String → Option (List Rat))
    (customId : Nat → MemoryChunk → String)
    (batchOutcome : Option (List (String × List Rat)))
    (provider : List MemoryChunk → List (List Rat))
    (chunks : List MemoryChunk) : List (List Rat) :=
  if batchEnabled && entryAndSourceGiven then
    if hasClient then
      embedChunksWithGenericBatch cacheLookup customId batchOutcome provider chunks
    else
      embedChunksInBatches cacheLookup provider chunks
  else
    embedChunksInBatches cacheLookup provider chunks

/-! ## Claim theorems -/

/-- C2: `runSync` decides that a full reindex is needed if and only if `force`
was passed, or the stored meta record is absent, or one of `model`,
`provider`, `providerKey`, `chunkTokens`, `chunkOverlap` differs from the
current configuration, or the vector extension is loadable but
`meta.vectorDims` is missing; in that case `reindex(cb)` is invoked,
otherwise the sync logic runs directly on the live store.  The hypothesis
rules out a stored `vectorDims` of 0, which the program never persists
(`reindex` only writes `vectorDims` when `this.vector.dims` is truthy) but
which JavaScript falsiness would also treat as missing. -/
theorem runSync_full_reindex_iff (force : Bool) (meta : Option MemoryIndexMeta)
    (curModel curProvider curProviderKey : String)
    (cfgTokens cfgOverlap : Int) (vectorReady : Bool)
    (hdims : ∀ m, meta = some m → m.vectorDims ≠ some 0) :
    runSyncAction force meta curModel curProvider curProviderKey
        cfgTokens cfgOverlap vectorReady = SyncAction.reindex ↔
      (force = true ∨ meta = none ∨
        ∃ m, meta = some m ∧
          (m.model ≠ curModel ∨ m.provider ≠ curProvider ∨
           m.providerKey ≠ some curProviderKey ∨ m.chunkTokens ≠ cfgTokens ∨
           m.chunkOverlap ≠ cfgOverlap ∨
           (vectorReady = true ∧ m.vectorDims = none))) := by
  cases meta with
  | none =>
    simp [runSyncAction, needsFullReindex]
  | some m =>
    have hd := hdims m rfl
    have hfalsy : (jsFalsyDims m.vectorDims = true) ↔ m.vectorDims = none := by
      cases hv : m.vectorDims with
      | none => simp [jsFalsyDims]
      | some d =>
        rw [hv] at hd
        have hd0 : d ≠ 0 := fun h0 => hd (by rw [h0])
        simp [jsFalsyDims, hd0]
    have hstep : runSyncAction force (some m) curModel curProvider curProviderKey
        cfgTokens cfgOverlap vectorReady = SyncAction.reindex ↔
        needsFullReindex force (some m) curModel curProvider curProviderKey
          cfgTokens cfgOverlap vectorReady = true := by
      unfold runSyncAction
      cases needsFullReindex force (some m) curModel curProvider curProviderKey
        cfgTokens cfgOverlap vectorReady <;> simp
    rw [hstep]
    simp only [needsFullReindex, Bool.or_eq_true, bne_iff_ne, ne_eq,
      Bool.and_eq_true, hfalsy, Option.some.injEq, reduceCtorEq, false_or]
    constructor
    · intro h
      rcases h with h | h
      · exact Or.inl h
      · exact Or.inr ⟨m, rfl, by tauto⟩
    · intro h
      rcases h with h | ⟨m2, hm2, h⟩
      · exact Or.inl h
      · cases hm2
        exact Or.inr (by tauto)

/-- Witness for C2 at a concrete configuration: stored meta matches the
current provider except for the model string, so a full reindex is
required. -/
theorem runSync_full_reindex_iff_witness :
    runSyncAction false
        (some ⟨"text-embedding-3-small", "openai", some "pk", 400, 80, some 1536⟩)
        "text-embedding-3-large" "openai" "pk" 400 80 true = SyncAction.reindex := by
  have h := runSync_full_reindex_iff false
    (some ⟨"text-embedding-3-small", "openai", some "pk", 400, 80, some 1536⟩)
    "text-embedding-3-large" "openai" "pk" 400 80 true
    (by intro m hm; cases hm; simp)
  exact h.mpr (Or.inr (Or.inr ⟨_, rfl, Or.inl (by simp)⟩))

/-- C3: when hybrid search is enabled the merged result set is the union by
id of vector and keyword results, combined as `vectorWeight * vScore +
textWeight * tScore` with a missing side 0 and sorted descending; for
vector results `[(A, 0.9), (B, 0.5)]`, keyword results
`[(B, 0.7), (C, 0.4)]`, `vectorWeight = 0.6`, `textWeight = 0.4`, the
merged order is `[B, A, C]` with scores `B = 0.58`, `A = 0.54`,
`C = 0.16`, and filtering with `minScore = 0.5` leaves `[B, A]`. -/
theorem mergeHybridResults_spec :
    (∀ (vector keyword : List (String × Rat)) (vw tw : Rat),
      List.Sorted scoreGe (mergeHybridResults vector keyword vw tw)) ∧
    mergeHybridResults [("A", 9/10), ("B", 1/2)] [("B", 7/10), ("C", 2/5)]
        (3/5) (2/5) =
      [⟨"B", 29/50⟩, ⟨"A", 27/50⟩, ⟨"C", 4/25⟩] ∧
    searchFilterTruncate
        (mergeHybridResults [("A", 9/10), ("B", 1/2)] [("B", 7/10), ("C", 2/5)]
          (3/5) (2/5)) (1/2) 10 =
      [⟨"B", 29/50⟩, ⟨"A", 27/50⟩] := by
  refine ⟨fun vector keyword vw tw => List.sorted_insertionSort scoreGe _, ?_, ?_⟩
  · simp [mergeHybridResults, sideScore, List.insertionSort,
      List.orderedInsert, scoreGe]
    norm_num [scoreGe]
  · simp [mergeHybridResults, sideScore, List.insertionSort,
      List.orderedInsert, scoreGe, searchFilterTruncate]
    norm_num [scoreGe, searchFilterTruncate]

/-! Helper lemmas for the embedding-manager state machine. -/

theorem mgrStep_record_fallbackFrom (s : EmbedMgrState) (a : Nat) (f : Bool) :
    (mgrStep s (MgrOp.record a f)).fallbackFrom = s.fallbackFrom := by
  simp only [mgrStep, recordBatchFailure]
  split
  · rfl
  · rfl

theorem mgrStep_reset_fallbackFrom (s : EmbedMgrState) :
    (mgrStep s MgrOp.reset).fallbackFrom = s.fallbackFrom := rfl

theorem activateFallback_of_false (cfg : EmbedSettings) (res : ProviderResult)
    (s : EmbedMgrState) (h : (activateFallback cfg res s).1 = false) :
    (activateFallback cfg res s).2 = s := by
  unfold activateFallback at h ⊢
  cases hc : cfg.fallback with
  | none => rfl
  | some f =>
    rw [hc] at h
    by_cases h1 : f = s.providerId
    · simp [h1]
    · by_cases h2 : s.fallbackFrom.isSome
      · simp [h1, h2]
      · simp [h1, h2] at h

theorem activateFallback_of_true (cfg : EmbedSettings) (res : ProviderResult)
    (s : EmbedMgrState) (h : (activateFallback cfg res s).1 = true) :
    (activateFallback cfg res s).2.fallbackFrom = some s.providerId := by
  unfold activateFallback at h ⊢
  cases hc : cfg.fallback with
  | none => rw [hc] at h; simp at h
  | some f =>
    rw [hc] at h
    by_cases h1 : f = s.providerId
    · simp [h1] at h
    · by_cases h2 : s.fallbackFrom.isSome
      · simp [h1, h2] at h
      · simp [h1, h2]

theorem mgrStep_preserves_fallbackFrom_isSome (s : EmbedMgrState) (op : MgrOp)
    (h : s.fallbackFrom.isSome = true) :
    (mgrStep s op).fallbackFrom.isSome = true := by
  cases op with
  | record a f => rw [mgrStep_record_fallbackFrom]; exact h
  | reset => rw [mgrStep_reset_fallbackFrom]; exact h
  | fallback cfg res =>
    show ((activateFallback cfg res s).2).fallbackFrom.isSome = true
    unfold activateFallback
    cases cfg.fallback with
    | none => exact h
    | some f =>
      by_cases h1 : f = s.providerId
      · simp [h1]; exact h
      · simp [h1, h]

theorem countFallbackSuccesses_of_isSome (ops : List MgrOp) :
    ∀ s : EmbedMgrState, s.fallbackFrom.isSome = true →
      countFallbackSuccesses s ops = 0 := by
  induction ops with
  | nil => intro s _; rfl
  | cons op rest ih =>
    intro s h
    cases op with
    | record a f =>
      simp only [countFallbackSuccesses]
      rw [ih _ (mgrStep_preserves_fallbackFrom_isSome s _ h)]
    | reset =>
      simp only [countFallbackSuccesses]
      rw [ih _ (mgrStep_preserves_fallbackFrom_isSome s _ h)]
    | fallback cfg res =>
      simp only [countFallbackSuccesses]
      have hfail : (activateFallback cfg res s).1 = false := by
        unfold activateFallback
        cases cfg.fallback with
        | none => rfl
        | some f =>
          by_cases h1 : f = s.providerId
          · simp [h1]
          · simp [h1, h]
      rw [hfail, ih _ (mgrStep_preserves_fallbackFrom_isSome s _ h)]
      simp

/-- C7: `activateFallback` succeeds at most once in a manager's lifetime, and
refuses (returning `false` and leaving the state untouched) whenever the
configured fallback is absent or `"none"`, equals the current provider's
id, or `fallbackFrom` is already set. -/
theorem activateFallback_spec :
    (∀ (cfg : EmbedSettings) (res : ProviderResult) (s : EmbedMgrState),
      (cfg.fallback = none ∨ cfg.fallback = some s.providerId ∨
          s.fallbackFrom.isSome = true) →
        activateFallback cfg res s = (false, s)) ∧
    (∀ (s : EmbedMgrState) (ops : List MgrOp), s.fallbackFrom = none →
      countFallbackSuccesses s ops ≤ 1) := by
  constructor
  · intro cfg res s h
    unfold activateFallback
    rcases h with h | h | h
    · rw [h]
    · rw [h]; simp
    · cases hc : cfg.fallback with
      | none => rfl
      | some f =>
        by_cases h1 : f = s.providerId
        · simp [h1]
        · simp [h1, h]
  · intro s ops
    induction ops generalizing s with
    | nil => intro _; exact Nat.zero_le 1
    | cons op rest ih =>
      intro h
      cases op with
      | record a f =>
        simp only [countFallbackSuccesses]
        have := ih (mgrStep s (MgrOp.record a f))
          (by rw [mgrStep_record_fallbackFrom]; exact h)
        omega
      | reset =>
        simp only [countFallbackSuccesses]
        have := ih (mgrStep s MgrOp.reset)
          (by rw [mgrStep_reset_fallbackFrom]; exact h)
        omega
      | fallback cfg res =>
        simp only [countFallbackSuccesses]
        by_cases hs : (activateFallback cfg res s).1 = true
        · rw [hs]
          have hsome : (mgrStep s (MgrOp.fallback cfg res)).fallbackFrom.isSome = true := by
            show ((activateFallback cfg res s).2).fallbackFrom.isSome = true
            rw [activateFallback_of_true cfg res s hs]
            rfl
          rw [countFallbackSuccesses_of_isSome rest _ hsome]
          simp
        · rw [Bool.eq_false_iff.mpr hs]
          have hstate : mgrStep s (MgrOp.fallback cfg res) = s :=
            activateFallback_of_false cfg res s (Bool.eq_false_iff.mpr hs ▸ rfl)
          have := ih (mgrStep s (MgrOp.fallback cfg res)) (by rw [hstate]; exact h)
          simpa using this

/-- Witness for C7: a manager on `openai` with fallback configured to
`"none"` refuses, and a fresh manager performs at most one successful
fallback over a concrete operation sequence. -/
theorem activateFallback_spec_witness :
    activateFallback ⟨true, none⟩ ⟨ProviderId.gemini, false, true, false⟩
        ⟨ProviderId.openai, true, false, false, none, true, 0⟩ =
      (false, ⟨ProviderId.openai, true, false, false, none, true, 0⟩) ∧
    countFallbackSuccesses ⟨ProviderId.openai, true, false, false, none, true, 0⟩
        [MgrOp.fallback ⟨true, some ProviderId.gemini⟩ ⟨ProviderId.gemini, false, true, false⟩,
         MgrOp.fallback ⟨true, some ProviderId.voyage⟩ ⟨ProviderId.voyage, false, false, true⟩] ≤ 1 :=
  ⟨activateFallback_spec.1 ⟨true, none⟩ ⟨ProviderId.gemini, false, true, false⟩
      ⟨ProviderId.openai, true, false, false, none, true, 0⟩ (Or.inl rfl),
   activateFallback_spec.2 ⟨ProviderId.openai, true, false, false, none, true, 0⟩
      _ rfl⟩

/-- Counterexample to C6 as stated: a manager on `openai` whose batch mode
was disabled by two recorded failures has it re-enabled by a later
successful `activateFallback` to `gemini`, because `activateFallback`
re-runs `resolveBatchConfig()` from the static settings. -/
theorem batch_disable_not_lifetime_counterexample :
    (mgrRun ⟨ProviderId.openai, true, true, false, none, true, 0⟩
        [MgrOp.record 1 false, MgrOp.record 1 false]).batchEnabled = false ∧
    (mgrRun ⟨ProviderId.openai, true, true, false, none, true, 0⟩
        [MgrOp.record 1 false, MgrOp.record 1 false,
         MgrOp.fallback ⟨true, some ProviderId.gemini⟩
           ⟨ProviderId.gemini, false, true, false⟩]).batchEnabled = true := by
  constructor
  · rfl
  · rfl

/-- C6 (amended): `recordBatchFailure` disables batch mode exactly when the
failure is force-disabling or the counter reaches `BATCH_FAILURE_LIMIT`;
once disabled it stays disabled under every later failure or success
operation (a successful `activateFallback`, which re-resolves the batch
configuration from settings, is the one operation that can re-enable it);
and `resetBatchFailureCount` (run on any batch success) resets the counter
to zero. -/
theorem recordBatchFailure_spec :
    (∀ (a : Nat) (f : Bool) (s : EmbedMgrState), s.batchEnabled = true →
      ((recordBatchFailure a f s).2.batchEnabled = false ↔
        (f = true ∨ BATCH_FAILURE_LIMIT ≤
          s.batchFailureCount + (if f = true then BATCH_FAILURE_LIMIT else max 1 a)))) ∧
    (∀ (s : EmbedMgrState) (ops : List MgrOp), s.batchEnabled = false →
      (∀ op ∈ ops, op.isFallback = false) →
      (mgrRun s ops).batchEnabled = false) ∧
    (∀ s : EmbedMgrState, (resetBatchFailureCount s).batchFailureCount = 0) := by
  refine ⟨?_, ?_, fun s => rfl⟩
  · intro a f s h
    simp only [recordBatchFailure, h, Bool.not_true, Bool.false_eq_true,
      if_false]
    by_cases hd : (f || decide (BATCH_FAILURE_LIMIT ≤
        s.batchFailureCount + (if f then BATCH_FAILURE_LIMIT else max 1 a))) = true
    · simp only [hd, if_true]
      simp only [Bool.or_eq_true, decide_eq_true_eq] at hd
      simpa using hd
    · simp only [hd, if_false, h]
      simp only [Bool.or_eq_true, decide_eq_true_eq] at hd
      push_neg at hd
      constructor
      · intro hfalse
        exact absurd hfalse (by simp)
      · intro hor
        rcases hor with h1 | h1
        · exact absurd h1 hd.1
        · cases hf : f with
          | true => exact absurd hf hd.1
          | false => rw [hf] at h1; exact absurd h1 (by simpa [hf] using hd.2)
  · intro s ops
    induction ops generalizing s with
    | nil => intro h _; exact h
    | cons op rest ih =>
      intro h hops
      cases op with
      | record a f =>
        have hstep : (mgrStep s (MgrOp.record a f)).batchEnabled = false := by
          simp only [mgrStep, recordBatchFailure, h, Bool.not_false, if_true]
        exact ih _ hstep (fun op hop => hops op (List.mem_cons_of_mem _ hop))
      | reset =>
        have hstep : (mgrStep s MgrOp.reset).batchEnabled = false := h
        exact ih _ hstep (fun op hop => hops op (List.mem_cons_of_mem _ hop))
      | fallback cfg res =>
        exact absurd (hops _ (List.mem_cons_self _ _)) (by simp [MgrOp.isFallback])

/-- Witness for C6 (amended): a force-disabling failure disables batch mode,
the disabled mode survives a later failure and a later success, and a reset
zeroes the counter. -/
theorem recordBatchFailure_spec_witness :
    ((recordBatchFailure 1 true
        ⟨ProviderId.openai, true, false, false, none, true, 0⟩).2.batchEnabled = false ↔
      (true = true ∨ BATCH_FAILURE_LIMIT ≤ 0 +
        (if true = true then BATCH_FAILURE_LIMIT else max 1 1))) ∧
    (mgrRun ⟨ProviderId.openai, true, false, false, none, false, 2⟩
        [MgrOp.record 1 false, MgrOp.reset]).batchEnabled = false ∧
    (resetBatchFailureCount
        ⟨ProviderId.openai, true, false, false, none, false, 2⟩).batchFailureCount = 0 :=
  ⟨recordBatchFailure_spec.1 1 true
      ⟨ProviderId.openai, true, false, false, none, true, 0⟩ rfl,
   recordBatchFailure_spec.2.1 ⟨ProviderId.openai, true, false, false, none, false, 2⟩
      [MgrOp.record 1 false, MgrOp.reset] rfl (by intro op hop; fin_cases hop <;> rfl),
   recordBatchFailure_spec.2.2 ⟨ProviderId.openai, true, false, false, none, false, 2⟩⟩

/-! Helper lemmas for the greedy batch packer. -/

theorem buildBatchesGo_join {α : Type} (est : α → Nat) :
    ∀ (l current : List α) (tok : Nat),
      (buildBatchesGo est current tok l).flatten = current ++ l := by
  intro l
  induction l with
  | nil =>
    intro current tok
    cases current <;> simp [buildBatchesGo]
  | cons c rest ih =>
    intro current tok
    cases current with
    | nil =>
      by_cases h : est c > EMBEDDING_BATCH_MAX_TOKENS
      · simp [buildBatchesGo, h, ih]
      · simp [buildBatchesGo, h, ih]
    | cons x xs =>
      by_cases h1 : tok + est c > EMBEDDING_BATCH_MAX_TOKENS
      · by_cases h2 : est c > EMBEDDING_BATCH_MAX_TOKENS
        · simp [buildBatchesGo, h1, h2, ih]
        · simp [buildBatchesGo, h1, h2, ih]
      · simp only [buildBatchesGo, if_neg h1, ih]
        simp

theorem buildBatchesGo_bound {α : Type} (est : α → Nat) :
    ∀ (l current : List α),
      (current.map est).sum ≤ EMBEDDING_BATCH_MAX_TOKENS →
      ∀ b ∈ buildBatchesGo est current ((current.map est).sum) l,
        (b.map est).sum ≤ EMBEDDING_BATCH_MAX_TOKENS ∨
          ∃ c, b = [c] ∧ est c > EMBEDDING_BATCH_MAX_TOKENS := by
  intro l
  induction l with
  | nil =>
    intro current hcur b hb
    cases current with
    | nil => simp [buildBatchesGo] at hb
    | cons x xs =>
      simp only [buildBatchesGo, List.mem_singleton] at hb
      subst hb
      exact Or.inl hcur
  | cons c rest ih =>
    intro current hcur b hb
    cases current with
    | nil =>
      by_cases h : est c > EMBEDDING_BATCH_MAX_TOKENS
      · simp only [buildBatchesGo, if_pos h, List.mem_cons] at hb
        rcases hb with hb | hb
        · exact Or.inr ⟨c, hb, h⟩
        · exact ih [] (by simp) b (by simpa using hb)
      · simp only [buildBatchesGo, if_neg h] at hb
        have : ([c].map est).sum ≤ EMBEDDING_BATCH_MAX_TOKENS := by
          simpa using Nat.le_of_not_lt h
        exact ih [c] this b (by simpa using hb)
    | cons x xs =>
      by_cases h1 : ((x :: xs).map est).sum + est c > EMBEDDING_BATCH_MAX_TOKENS
      · by_cases h2 : est c > EMBEDDING_BATCH_MAX_TOKENS
        · simp only [buildBatchesGo, if_pos h1, if_pos h2, List.mem_cons] at hb
          rcases hb with hb | hb | hb
          · exact Or.inl (hb ▸ hcur)
          · exact Or.inr ⟨c, hb, h2⟩
          · exact ih [] (by simp) b (by simpa using hb)
        · simp only [buildBatchesGo, if_pos h1, if_neg h2, List.mem_cons] at hb
          rcases hb with hb | hb
          · exact Or.inl (hb ▸ hcur)
          · have : ([c].map est).sum ≤ EMBEDDING_BATCH_MAX_TOKENS := by
              simpa using Nat.le_of_not_lt h2
            exact ih [c] this b (by simpa using hb)
      · simp only [buildBatchesGo, if_neg h1] at hb
        have hsum : ((x :: xs ++ [c]).map est).sum =
            ((x :: xs).map est).sum + est c := by
          simp [Nat.add_assoc]
        have hle : ((x :: xs ++ [c]).map est).sum ≤ EMBEDDING_BATCH_MAX_TOKENS := by
          rw [hsum]; exact Nat.le_of_not_lt h1
        have := ih (x :: xs ++ [c]) hle b
        rw [hsum] at this
        exact this hb

theorem buildBatchesGo_oversize {α : Type} (est : α → Nat) :
    ∀ (l current : List α) (tok : Nat) (c : α), c ∈ l →
      est c > EMBEDDING_BATCH_MAX_TOKENS →
      [c] ∈ buildBatchesGo est current tok l := by
  intro l
  induction l with
  | nil => intro current tok c hc; simp at hc
  | cons c0 rest ih =>
    intro current tok c hc hbig
    rcases List.mem_cons.mp hc with hc | hc
    · subst hc
      cases current with
      | nil =>
        simp [buildBatchesGo, if_pos hbig]
      | cons x xs =>
        have h1 : tok + est c > EMBEDDING_BATCH_MAX_TOKENS :=
          lt_of_lt_of_le hbig (Nat.le_add_left _ _)
        simp [buildBatchesGo, if_pos h1, if_pos hbig]
    · cases current with
      | nil =>
        by_cases h : est c0 > EMBEDDING_BATCH_MAX_TOKENS
        · simp only [buildBatchesGo, if_pos h, List.mem_cons]
          exact Or.inr (ih [] 0 c hc hbig)
        · simp only [buildBatchesGo, if_neg h]
          exact ih [c0] (est c0) c hc hbig
      | cons x xs =>
        by_cases h1 : tok + est c0 > EMBEDDING_BATCH_MAX_TOKENS
        · by_cases h2 : est c0 > EMBEDDING_BATCH_MAX_TOKENS
          · simp only [buildBatchesGo, if_pos h1, if_pos h2, List.mem_cons]
            exact Or.inr (Or.inr (ih [] 0 c hc hbig))
          · simp only [buildBatchesGo, if_pos h1, if_neg h2, List.mem_cons]
            exact Or.inr (ih [c0] (est c0) c hc hbig)
        · simp only [buildBatchesGo, if_neg h1]
          exact ih (x :: xs ++ [c0]) (tok + est c0) c hc hbig

/-- C8: `buildEmbeddingBatches` greedily packs the chunks in order: the
concatenation of the sub-batches is the input sequence, every sub-batch
with two or more chunks stays within `EMBEDDING_BATCH_MAX_TOKENS`, and any
single chunk whose estimate exceeds the cap forms its own singleton
batch. -/
theorem buildEmbeddingBatches_spec {α : Type} (est : α → Nat) (chunks : List α) :
    (buildEmbeddingBatches est chunks).flatten = chunks ∧
    (∀ b ∈ buildEmbeddingBatches est chunks, 2 ≤ b.length →
      (b.map est).sum ≤ EMBEDDING_BATCH_MAX_TOKENS) ∧
    (∀ c ∈ chunks, est c > EMBEDDING_BATCH_MAX_TOKENS →
      [c] ∈ buildEmbeddingBatches est chunks) := by
  refine ⟨by simpa using buildBatchesGo_join est chunks [] 0, ?_, ?_⟩
  · intro b hb hlen
    have := buildBatchesGo_bound est chunks [] (by simp) b (by simpa using hb)
    rcases this with h | ⟨c, hc, _⟩
    · exact h
    · rw [hc] at hlen; simp at hlen
  · intro c hc hbig
    exact buildBatchesGo_oversize est chunks [] 0 c hc hbig

/-- Witness for C8 at a concrete packing: chunks with estimates
`[3, 4, 9000, 5]` pack as `[[3, 4], [9000], [5]]`, so the two-chunk batch
stays within the cap and the oversized chunk is a singleton batch. -/
theorem buildEmbeddingBatches_spec_witness :
    (([3, 4].map (fun n : Nat => n)).sum ≤ EMBEDDING_BATCH_MAX_TOKENS) ∧
    [9000] ∈ buildEmbeddingBatches (fun n : Nat => n) [3, 4, 9000, 5] :=
  ⟨(buildEmbeddingBatches_spec (fun n : Nat => n) [3, 4, 9000, 5]).2.1
      [3, 4] (by decide) (by decide),
   (buildEmbeddingBatches_spec (fun n : Nat => n) [3, 4, 9000, 5]).2.2
      9000 (by decide) (by decide)⟩

/-- C9: after `pruneEmbeddingCacheIfNeeded` the cache holds at most
`maxEntries` rows (caching enabled, `maxEntries` positive), the deleted
rows are exactly the `count - maxEntries` rows with the smallest
`updated_at` (every deleted row is strictly older than every survivor),
and with `maxEntries = 3` and rows stamped `1, 2, 3, 4` the survivors are
those stamped `2, 3, 4`.  Rowids are unique (they are the table's rowids)
and the timestamps of the scenario are pairwise distinct. -/
theorem pruneEmbeddingCache_spec :
    (∀ (rows : List CacheRow) (m : Int), 0 < m →
      (rows.map CacheRow.rowid).Nodup →
      (rows.map CacheRow.updatedAt).Nodup →
      ((pruneEmbeddingCacheIfNeeded true (some m) rows).length : Int) ≤ m ∧
      (∀ a ∈ rows, a ∉ pruneEmbeddingCacheIfNeeded true (some m) rows →
        ∀ b ∈ pruneEmbeddingCacheIfNeeded true (some m) rows,
          a.updatedAt < b.updatedAt)) ∧
    pruneEmbeddingCacheIfNeeded true (some 3)
        [⟨1, 1⟩, ⟨2, 2⟩, ⟨3, 3⟩, ⟨4, 4⟩] =
      [⟨2, 2⟩, ⟨3, 3⟩, ⟨4, 4⟩] := by
  constructor
  · intro rows m hm hrowid hupd
    have hm0 : ¬ m ≤ 0 := not_le.mpr hm
    by_cases hle : (rows.length : Int) ≤ m
    · have hpr : pruneEmbeddingCacheIfNeeded true (some m) rows = rows := by
        unfold pruneEmbeddingCacheIfNeeded
        simp [hm0, hle]
      rw [hpr]
      exact ⟨hle, fun a ha hna => absurd ha hna⟩
    · have hpr : pruneEmbeddingCacheIfNeeded true (some m) rows =
          rows.filter (fun r =>
            !(((pruneVictims rows (rows.length - m.toNat)).map
                CacheRow.rowid).contains r.rowid)) := by
        simp [pruneEmbeddingCacheIfNeeded, hm0, hle]
      set excess := rows.length - m.toNat with hexcess
      set victims := (pruneVictims rows excess).map CacheRow.rowid with hvictims
      set sortedRows := List.insertionSort cacheRowLe rows with hsortdef
      have hperm : List.Perm sortedRows rows := List.perm_insertionSort cacheRowLe rows
      have hsplit : sortedRows.take excess ++ sortedRows.drop excess = sortedRows :=
        List.take_append_drop excess sortedRows
      have hvict : victims = (sortedRows.take excess).map CacheRow.rowid := by
        rw [hvictims]; rfl
      have hrowid2 : (sortedRows.map CacheRow.rowid).Nodup :=
        ((hperm.map CacheRow.rowid).nodup_iff).mpr hrowid
      have hmapsplit : (sortedRows.take excess).map CacheRow.rowid ++
          (sortedRows.drop excess).map CacheRow.rowid =
            sortedRows.map CacheRow.rowid := by
        rw [← List.map_append, hsplit]
      have hdisj : ∀ x ∈ (sortedRows.take excess).map CacheRow.rowid,
          x ∉ (sortedRows.drop excess).map CacheRow.rowid := by
        intro x hx
        have hnn := hmapsplit ▸ hrowid2
        exact (List.nodup_append.mp hnn).2.2 hx
      have hupd2 : (sortedRows.map CacheRow.updatedAt).Nodup :=
        ((hperm.map CacheRow.updatedAt).nodup_iff).mpr hupd
      have hmapsplitU : (sortedRows.take excess).map CacheRow.updatedAt ++
          (sortedRows.drop excess).map CacheRow.updatedAt =
            sortedRows.map CacheRow.updatedAt := by
        rw [← List.map_append, hsplit]
      have hdisjU : ∀ x ∈ (sortedRows.take excess).map CacheRow.updatedAt,
          x ∉ (sortedRows.drop excess).map CacheRow.updatedAt := by
        intro x hx
        have hnn := hmapsplitU ▸ hupd2
        exact (List.nodup_append.mp hnn).2.2 hx
      -- the filter deletes exactly the taken prefix of the sorted list
      have htake : (sortedRows.take excess).filter
          (fun r => !victims.contains r.rowid) = [] := by
        rw [List.filter_eq_nil_iff]
        intro r hr
        have hmem : r.rowid ∈ victims := by
          rw [hvict]; exact List.mem_map_of_mem CacheRow.rowid hr
        simpa using hmem
      have hdropmem : ∀ r ∈ sortedRows.drop excess,
          (fun r => !victims.contains r.rowid) r = true := by
        intro r hr
        have hnotmem : r.rowid ∉ victims := by
          rw [hvict]
          intro hmem
          exact hdisj r.rowid hmem (List.mem_map_of_mem CacheRow.rowid hr)
        simpa using hnotmem
      have hdrop : (sortedRows.drop excess).filter
          (fun r => !victims.contains r.rowid) = sortedRows.drop excess :=
        List.filter_eq_self.mpr hdropmem
      have hfperm : List.Perm (rows.filter (fun r => !victims.contains r.rowid))
          (sortedRows.drop excess) := by
        have h1 := (hperm.filter (fun r => !victims.contains r.rowid)).symm
        have h2 : sortedRows.filter (fun r => !victims.contains r.rowid) =
            sortedRows.drop excess := by
          conv_lhs => rw [← hsplit]
          rw [List.filter_append, htake, hdrop, List.nil_append]
        rw [h2] at h1
        exact h1
      have hlensorted : sortedRows.length = rows.length := hperm.length_eq
      have hmlt : m.toNat < rows.length := by
        rw [not_le] at hle
        omega
      have hlen : (pruneEmbeddingCacheIfNeeded true (some m) rows).length
          = m.toNat := by
        rw [hpr, hfperm.length_eq, List.length_drop, hlensorted]
        omega
      constructor
      · rw [hlen]
        omega
      · intro a ha hna b hb
        rw [hpr] at hna hb
        have hbdrop : b ∈ sortedRows.drop excess := hfperm.mem_iff.mp hb
        have hasort : a ∈ sortedRows := hperm.mem_iff.mpr ha
        have hamem : a ∈ sortedRows.take excess ++ sortedRows.drop excess := by
          rw [hsplit]; exact hasort
        rcases List.mem_append.mp hamem with hatake | hadrop
        · have hs : List.Sorted cacheRowLe sortedRows :=
            List.sorted_insertionSort cacheRowLe rows
          have hpw : List.Pairwise cacheRowLe
              (sortedRows.take excess ++ sortedRows.drop excess) := by
            rw [hsplit]; exact hs
          have hle2 : a.updatedAt ≤ b.updatedAt :=
            (List.pairwise_append.mp hpw).2.2 a hatake b hbdrop
          have hne : a.updatedAt ≠ b.updatedAt := by
            intro heq
            exact hdisjU a.updatedAt
              (List.mem_map_of_mem CacheRow.updatedAt hatake)
              (heq ▸ List.mem_map_of_mem CacheRow.updatedAt hbdrop)
          exact lt_of_le_of_ne hle2 hne
        · exact absurd
            (List.mem_filter.mpr ⟨ha, hdropmem a hadrop⟩) hna
  · decide

/-- Witness for C9: the general statement applied to the four-row scenario:
after pruning to three entries the survivors number three and each deleted
row is older than each survivor. -/
theorem pruneEmbeddingCache_spec_witness :
    ((pruneEmbeddingCacheIfNeeded true (some 3)
        [⟨1, 1⟩, ⟨2, 2⟩, ⟨3, 3⟩, ⟨4, 4⟩]).length : Int) ≤ 3 ∧
    (∀ a ∈ ([⟨1, 1⟩, ⟨2, 2⟩, ⟨3, 3⟩, ⟨4, 4⟩] : List CacheRow),
      a ∉ pruneEmbeddingCacheIfNeeded true (some 3)
          [⟨1, 1⟩, ⟨2, 2⟩, ⟨3, 3⟩, ⟨4, 4⟩] →
      ∀ b ∈ pruneEmbeddingCacheIfNeeded true (some 3)
          [⟨1, 1⟩, ⟨2, 2⟩, ⟨3, 3⟩, ⟨4, 4⟩],
        a.updatedAt < b.updatedAt) :=
  pruneEmbeddingCache_spec.1 [⟨1, 1⟩, ⟨2, 2⟩, ⟨3, 3⟩, ⟨4, 4⟩] 3
    (by decide) (by decide) (by decide)

/-! Helper lemmas for the retry loop. -/

theorem embedBatchRetryGo_calls_le (oc : Nat → Except String (List (List Rat)))
    (j : Nat → Rat) :
    ∀ (r idx : Nat) (d : Rat),
      (embedBatchRetryGo oc j idx d r).calls ≤ idx + r + 1 := by
  intro r
  induction r with
  | zero =>
    intro idx d
    cases hoc : oc idx <;> simp [embedBatchRetryGo, hoc]
  | succ r ih =>
    intro idx d
    cases hoc : oc idx with
    | ok v =>
      simp only [embedBatchRetryGo, hoc]
      show idx + 1 ≤ idx + (r + 1) + 1
      omega
    | error e =>
      by_cases hret : isRetryableEmbeddingError e
      · simp only [embedBatchRetryGo, hoc]
        rw [if_pos hret]
        have := ih (idx + 1) (d * 2)
        show (embedBatchRetryGo oc j (idx + 1) (d * 2) r).calls ≤ idx + (r + 1) + 1
        omega
      · simp only [embedBatchRetryGo, hoc]
        rw [if_neg hret]
        show idx + 1 ≤ idx + (r + 1) + 1
        omega

theorem embedBatchRetryGo_waits (oc : Nat → Except String (List (List Rat)))
    (j : Nat → Rat) :
    ∀ (r idx k : Nat),
      k < (embedBatchRetryGo oc j idx
            (EMBEDDING_RETRY_BASE_DELAY_MS * 2 ^ idx) r).waits.length →
      (embedBatchRetryGo oc j idx
          (EMBEDDING_RETRY_BASE_DELAY_MS * 2 ^ idx) r).waits.get? k =
        some (min EMBEDDING_RETRY_MAX_DELAY_MS
          (jsRound (EMBEDDING_RETRY_BASE_DELAY_MS * 2 ^ (idx + k) *
            (1 + j (idx + k) * (1/5))))) := by
  intro r
  induction r with
  | zero =>
    intro idx k hk
    cases hoc : oc idx <;> simp [embedBatchRetryGo, hoc] at hk
  | succ r ih =>
    intro idx k hk
    cases hoc : oc idx with
    | ok v => simp [embedBatchRetryGo, hoc] at hk
    | error e =>
      by_cases hret : isRetryableEmbeddingError e
      · simp only [embedBatchRetryGo, hoc, hret, if_true] at hk ⊢
        have hd : EMBEDDING_RETRY_BASE_DELAY_MS * 2 ^ idx * 2 =
            EMBEDDING_RETRY_BASE_DELAY_MS * 2 ^ (idx + 1) := by
          ring
        cases k with
        | zero =>
          simp [List.get?]
        | succ k =>
          simp only [List.get?, List.length_cons] at hk ⊢
          rw [hd] at hk ⊢
          have hidx : idx + 1 + k = idx + (k + 1) := by omega
          have := ih (idx + 1) k (by omega)
          rw [hidx] at this
          exact this
      · simp [embedBatchRetryGo, hoc, hret] at hk

theorem embedBatchRetryGo_retryable_prefix
    (oc : Nat → Except String (List (List Rat))) (j : Nat → Rat) :
    ∀ (r idx : Nat) (d : Rat) (i : Nat), idx ≤ i →
      i + 1 < (embedBatchRetryGo oc j idx d r).calls →
      ∃ e, oc i = Except.error e ∧ isRetryableEmbeddingError e = true := by
  intro r
  induction r with
  | zero =>
    intro idx d i hle hi
    cases hoc : oc idx <;> simp [embedBatchRetryGo, hoc] at hi <;> omega
  | succ r ih =>
    intro idx d i hle hi
    cases hoc : oc idx with
    | ok v => simp [embedBatchRetryGo, hoc] at hi; omega
    | error e =>
      by_cases hret : isRetryableEmbeddingError e
      · simp only [embedBatchRetryGo, hoc, hret, if_true] at hi
        rcases Nat.eq_or_lt_of_le hle with heq | hlt
        · exact ⟨e, heq ▸ hoc, hret⟩
        · exact ih (idx + 1) (d * 2) i hlt hi
      · simp [embedBatchRetryGo, hoc, hret] at hi
        omega

/-- Counterexample to C5 as stated: with every provider call failing with a
retryable `429` error, `embedBatchWithRetry` makes four provider calls
(the initial call plus `EMBEDDING_RETRY_MAX_ATTEMPTS = 3` retries), not at
most three. -/
theorem embedBatchWithRetry_attempts_counterexample :
    (embedBatchWithRetry false (fun _ => Except.error "429")
        (fun _ => 0)).calls = 4 ∧
    ¬ (embedBatchWithRetry false (fun _ => Except.error "429")
        (fun _ => 0)).calls ≤ 3 := by
  have h : (embedBatchWithRetry false (fun _ => Except.error "429")
      (fun _ => 0)).calls = 4 := rfl
  exact ⟨h, by rw [h]; omega⟩

/-- C5 (amended): `embedBatchWithRetry` makes at most 4 provider calls in
total (one initial call plus up to `EMBEDDING_RETRY_MAX_ATTEMPTS = 3`
retries); a non-retryable first error propagates immediately with no wait;
the wait before the `k`-th retry is `min(8s, round(500ms * 2^k * f))` with
jitter factor `f = 1 + random * 0.2` (an upward jitter of 0-20%, not a
symmetric one); and every call that was followed by a retry had failed with
an error matching the retryable classes (rate-limit text, HTTP 429, 5xx,
"resource has been exhausted", or Cloudflare). -/
theorem embedBatchWithRetry_spec :
    (∀ (te : Bool) (oc : Nat → Except String (List (List Rat))) (j : Nat → Rat),
      (embedBatchWithRetry te oc j).calls ≤ EMBEDDING_RETRY_MAX_ATTEMPTS + 1) ∧
    (∀ (oc : Nat → Except String (List (List Rat))) (j : Nat → Rat) (e : String),
      oc 0 = Except.error e → isRetryableEmbeddingError e = false →
      embedBatchWithRetry false oc j = ⟨Except.error e, 1, []⟩) ∧
    (∀ (oc : Nat → Except String (List (List Rat))) (j : Nat → Rat) (k : Nat),
      k < (embedBatchWithRetry false oc j).waits.length →
      (embedBatchWithRetry false oc j).waits.get? k =
        some (min EMBEDDING_RETRY_MAX_DELAY_MS
          (jsRound (EMBEDDING_RETRY_BASE_DELAY_MS * 2 ^ k *
            (1 + j k * (1/5)))))) ∧
    (∀ (oc : Nat → Except String (List (List Rat))) (j : Nat → Rat) (i : Nat),
      i + 1 < (embedBatchWithRetry false oc j).calls →
      ∃ e, oc i = Except.error e ∧ isRetryableEmbeddingError e = true) := by
  refine ⟨?_, ?_, ?_, ?_⟩
  · intro te oc j
    cases te with
    | true => simp [embedBatchWithRetry]
    | false =>
      have := embedBatchRetryGo_calls_le oc j EMBEDDING_RETRY_MAX_ATTEMPTS 0
        EMBEDDING_RETRY_BASE_DELAY_MS
      simpa [embedBatchWithRetry] using this
  · intro oc j e hoc hret
    simp [embedBatchWithRetry, embedBatchRetryGo, hoc, hret,
      EMBEDDING_RETRY_MAX_ATTEMPTS]
  · intro oc j k hk
    have hbase : EMBEDDING_RETRY_BASE_DELAY_MS =
        EMBEDDING_RETRY_BASE_DELAY_MS * 2 ^ 0 := by ring
    simp only [embedBatchWithRetry, Bool.false_eq_true, if_false] at hk ⊢
    rw [hbase] at hk ⊢
    have := embedBatchRetryGo_waits oc j EMBEDDING_RETRY_MAX_ATTEMPTS 0 k hk
    simpa using this
  · intro oc j i hi
    simp only [embedBatchWithRetry, Bool.false_eq_true, if_false] at hi
    exact embedBatchRetryGo_retryable_prefix oc j EMBEDDING_RETRY_MAX_ATTEMPTS 0
      EMBEDDING_RETRY_BASE_DELAY_MS i (Nat.zero_le i) hi

/-- Witness for C5 (amended): a non-retryable error (`"bad request"`)
propagates after exactly one provider call with no waits, and the call
count is within the bound. -/
theorem embedBatchWithRetry_spec_witness :
    embedBatchWithRetry false (fun _ => Except.error "bad request")
        (fun _ => 0) =
      ⟨Except.error "bad request", 1, []⟩ ∧
    (embedBatchWithRetry false (fun _ => Except.error "bad request")
        (fun _ => 0)).calls ≤ EMBEDDING_RETRY_MAX_ATTEMPTS + 1 :=
  ⟨embedBatchWithRetry_spec.2.1 (fun _ => Except.error "bad request")
      (fun _ => 0) "bad request" rfl (by decide),
   embedBatchWithRetry_spec.1 false (fun _ => Except.error "bad request")
      (fun _ => 0)⟩

/-- Counterexample to C4 as stated: a failing query embedding propagates out
of `search()` — the call to `embedQueryWithTimeout` on line 225 has no
`.catch` guard, unlike the keyword and vector scans. -/
theorem search_throws_counterexample :
    search ⟨false, true, Except.ok [("A", 9/10)],
        Except.error "memory embeddings query timed out after 60s",
        Except.ok [("B", 1/2)], 3/5, 2/5, 0, 10⟩ =
      Except.error "memory embeddings query timed out after 60s" := rfl

/-- C4 (amended): failures of the keyword scan and of the vector scan are
caught and treated as empty results, so `search()` only throws when the
query embedding itself fails: every error it returns is the embedding
error, and whenever the query embedding succeeds (or the trimmed query is
empty) the call returns normally. -/
theorem search_error_spec :
    (∀ (inp : SearchInput) (e : String), search inp = Except.error e →
      inp.embedOutcome = Except.error e) ∧
    (∀ inp : SearchInput,
      (inp.queryBlank = true ∨ ∃ v, inp.embedOutcome = Except.ok v) →
      (search inp).isOk = true) := by
  constructor
  · intro inp e hsearch
    unfold search at hsearch
    by_cases hq : inp.queryBlank
    · rw [if_pos hq] at hsearch
      exact absurd hsearch (by simp)
    · rw [if_neg hq] at hsearch
      cases hemb : inp.embedOutcome with
      | error e2 =>
        rw [hemb] at hsearch
        simp only [Except.error.injEq] at hsearch
        rw [hsearch]
      | ok v =>
        rw [hemb] at hsearch
        by_cases hh : inp.hybridEnabled
        · simp [hh] at hsearch
        · simp [hh] at hsearch
  · intro inp h
    unfold search
    rcases h with hq | ⟨v, hemb⟩
    · rw [if_pos hq]; rfl
    · by_cases hq : inp.queryBlank
      · rw [if_pos hq]; rfl
      · rw [if_neg hq, hemb]
        by_cases hh : inp.hybridEnabled
        · simp [hh, Except.isOk, Except.toBool]
        · simp [hh, Except.isOk, Except.toBool]

/-- Witness for C4 (amended): with both scans failing but the embedding
succeeding, `search` returns normally; and the error returned in the
counterexample run is indeed the embedding error. -/
theorem search_error_spec_witness :
    (search ⟨false, true, Except.error "fts scan failed",
        Except.ok [1/2], Except.error "vec scan failed",
        3/5, 2/5, 0, 10⟩).isOk = true ∧
    (⟨false, true, Except.ok [("A", 9/10)],
        Except.error "memory embeddings query timed out after 60s",
        Except.ok [("B", 1/2)], 3/5, 2/5, 0, 10⟩ : SearchInput).embedOutcome =
      Except.error "memory embeddings query timed out after 60s" :=
  ⟨search_error_spec.2 ⟨false, true, Except.error "fts scan failed",
      Except.ok [1/2], Except.error "vec scan failed", 3/5, 2/5, 0, 10⟩
      (Or.inr ⟨[1/2], rfl⟩),
   search_error_spec.1 ⟨false, true, Except.ok [("A", 9/10)],
      Except.error "memory embeddings query timed out after 60s",
      Except.ok [("B", 1/2)], 3/5, 2/5, 0, 10⟩
      "memory embeddings query timed out after 60s" rfl⟩

/-- Counterexample to C1 as stated: when the failure strikes during the swap
itself (second rename, `temp -> live`) — which is before the file swap
completes — the catch path runs with `originalDbClosed = true`, so
`restoreOriginalState` reopens a fresh handle at the live path and resets
`vector.available` and `vectorReady` to null instead of restoring their
pre-reindex values. -/
theorem reindex_restore_counterexample :
    ReindexFail.beforeSwapComplete ReindexFail.swapTempToLive = true ∧
    (reindexRun
        ⟨0, true, true, none, some true, none, some 768, some 7,
          ⟨some 1, false, none, false, none⟩⟩
        ⟨true, none, some true, some 768, 2, true, none⟩
        ReindexFail.swapTempToLive).2 = true ∧
    (reindexRun
        ⟨0, true, true, none, some true, none, some 768, some 7,
          ⟨some 1, false, none, false, none⟩⟩
        ⟨true, none, some true, some 768, 2, true, none⟩
        ReindexFail.swapTempToLive).1.vectorAvailable ≠ some true ∧
    (reindexRun
        ⟨0, true, true, none, some true, none, some 768, some 7,
          ⟨some 1, false, none, false, none⟩⟩
        ⟨true, none, some true, some 768, 2, true, none⟩
        ReindexFail.swapTempToLive).1.dbHandle ≠ 0 := by
  refine ⟨rfl, rfl, by decide, by decide⟩

/-- C1 (amended): a failure in `reindex(cb)` before the two stores are closed
for the swap (cache seeding, `cb()` itself, `writeMeta`, cache pruning)
deletes the temp files, restores the db handle, the FTS/vector flags and
the persisted meta exactly, and rethrows; a failure during the swap itself
still deletes the temp files, leaves the persisted meta unchanged (the
first rename has not happened or is rolled back from the backup) and
rethrows, but the manager holds a freshly opened handle at the original
path and its vector availability and vector-ready promise are reset to
null rather than restored. -/
theorem reindex_failure_restore (init : ManagerState) (p : ReindexParams)
    (hlive : init.dbAtLivePath = true)
    (htemp : init.fs.tempExists = false) (htempm : init.fs.tempMeta = none)
    (hback : init.fs.backupExists = false) (hbackm : init.fs.backupMeta = none) :
    (∀ fp : ReindexFail, fp.beforeClose = true →
      reindexRun init p fp = (init, true)) ∧
    (∀ fp : ReindexFail,
      (fp = ReindexFail.swapLiveToBackup ∨ fp = ReindexFail.swapTempToLive) →
      reindexRun init p fp =
        (⟨2, true, init.ftsAvailable, init.ftsLoadError, none,
          init.vectorLoadError, init.vectorDims, none, init.fs⟩, true)) := by
  obtain ⟨d, al, fa, fe, va, vl, vd, vr, fs⟩ := init
  obtain ⟨lm, te, tm, be, bm⟩ := fs
  simp only [] at hlive htemp htempm hback hbackm
  subst hlive
  subst htemp
  subst htempm
  subst hback
  subst hbackm
  constructor
  · intro fp hfp
    cases fp <;> first
      | rfl
      | exact absurd hfp (by decide)
  · intro fp hfp
    rcases hfp with rfl | rfl
    · rfl
    · rfl

/-- Witness for C1 (amended): a failure thrown by `cb()` itself restores the
manager exactly and rethrows. -/
theorem reindex_failure_restore_witness :
    reindexRun
        ⟨0, true, true, none, some true, none, some 768, some 7,
          ⟨some 1, false, none, false, none⟩⟩
        ⟨true, none, some true, some 768, 2, true, none⟩ ReindexFail.cb =
      (⟨0, true, true, none, some true, none, some 768, some 7,
          ⟨some 1, false, none, false, none⟩⟩, true) :=
  (reindex_failure_restore
      ⟨0, true, true, none, some true, none, some 768, some 7,
        ⟨some 1, false, none, false, none⟩⟩
      ⟨true, none, some true, some 768, 2, true, none⟩
      rfl rfl rfl rfl rfl).1 ReindexFail.cb rfl

/-! Helper lemmas for the chunk-embedding pipeline. -/

theorem foldlSet_length (assigns : List (Nat × List Rat)) :
    ∀ acc : List (List Rat),
      (assigns.foldl (fun a p => a.set p.1 p.2) acc).length = acc.length := by
  induction assigns with
  | nil => intro acc; rfl
  | cons p rest ih =>
    intro acc
    rw [List.foldl_cons, ih, List.length_set]

theorem applyAssigns_length (n : Nat) (assigns : List (Nat × List Rat)) :
    (applyAssigns n assigns).length = n := by
  unfold applyAssigns
  rw [foldlSet_length, List.length_replicate]

theorem foldlSet_get_of_not_mem (i : Nat) :
    ∀ (assigns : List (Nat × List Rat)) (acc : List (List Rat)),
      (∀ p ∈ assigns, p.1 ≠ i) →
      (assigns.foldl (fun a p => a.set p.1 p.2) acc).get? i = acc.get? i := by
  intro assigns
  induction assigns with
  | nil => intro acc _; rfl
  | cons p rest ih =>
    intro acc h
    rw [List.foldl_cons, ih _ (fun q hq => h q (List.mem_cons_of_mem _ hq)),
      List.get?_set_ne _ _ (h p (List.mem_cons_self _ _))]

theorem foldlSet_get_of_assigned (i : Nat) (v : List Rat) :
    ∀ (assigns : List (Nat × List Rat)) (acc : List (List Rat)),
      (i, v) ∈ assigns → (∀ p ∈ assigns, p.1 = i → p.2 = v) →
      i < acc.length →
      (assigns.foldl (fun a p => a.set p.1 p.2) acc).get? i = some v := by
  intro assigns
  induction assigns with
  | nil => intro acc hmem _ _; simp at hmem
  | cons p rest ih =>
    intro acc hmem hall hlen
    rw [List.foldl_cons]
    by_cases hrest : ∃ q ∈ rest, q.1 = i
    · rcases hrest with ⟨q, hq, hqi⟩
      have hqv : q.2 = v := hall q (List.mem_cons_of_mem _ hq) hqi
      obtain ⟨q1, q2⟩ := q
      simp only [] at hqi hqv
      subst hqi
      subst hqv
      exact ih _ hq (fun r hr hri => hall r (List.mem_cons_of_mem _ hr) hri)
        (by rw [List.length_set]; exact hlen)
    · push_neg at hrest
      rw [foldlSet_get_of_not_mem i rest _ hrest]
      rcases List.mem_cons.mp hmem with heq | hmem2
      · rw [← heq]
        exact List.get?_set_eq_of_lt v hlen
      · exact absurd rfl (hrest (i, v) hmem2)

theorem indexedFrom_get? {α : Type} :
    ∀ (l : List α) (n j : Nat),
      (indexedFrom n l).get? j = (l.get? j).map (fun c => (n + j, c)) := by
  intro l
  induction l with
  | nil => intro n j; cases j <;> rfl
  | cons c rest ih =>
    intro n j
    cases j with
    | zero => rfl
    | succ j =>
      show (indexedFrom (n + 1) rest).get? j =
        (rest.get? j).map (fun c => (n + (j + 1), c))
      rw [ih (n + 1) j]
      have h : n + 1 + j = n + (j + 1) := by omega
      rw [h]

theorem indexedFrom_mem_get? {α : Type} (l : List α) (p : Nat × α)
    (h : p ∈ indexedFrom 0 l) : l.get? p.1 = some p.2 := by
  rcases List.mem_iff_get?.mp h with ⟨j, hj⟩
  rw [indexedFrom_get?] at hj
  cases hl : l.get? j with
  | none => rw [hl] at hj; simp at hj
  | some c =>
    rw [hl] at hj
    simp only [Option.map_some'] at hj
    have hp : (0 + j, c) = p := Option.some.inj hj
    rw [← hp]
    simpa using hl

theorem get?_indexedFrom_mem {α : Type} (l : List α) (i : Nat) (c : α)
    (h : l.get? i = some c) : (i, c) ∈ indexedFrom 0 l := by
  have hg : (indexedFrom 0 l).get? i = some (i, c) := by
    rw [indexedFrom_get?, h]
    simp
  exact List.get?_mem hg

theorem get?_lt_length {α : Type} (l : List α) (i : Nat) (c : α)
    (h : l.get? i = some c) : i < l.length := by
  rw [List.get?_eq_getElem?] at h
  exact (List.getElem?_eq_some_iff.mp h).1

theorem hitAssignments_mem (cl : String → Option (List Rat))
    (chunks : List MemoryChunk) (i : Nat) (v : List Rat)
    (h : (i, v) ∈ hitAssignments cl chunks) :
    ∃ c, chunks.get? i = some c ∧ chunkCacheHit cl c = some v := by
  unfold hitAssignments at h
  rcases List.mem_filterMap.mp h with ⟨p, hp, hmap⟩
  cases hh : chunkCacheHit cl p.2 with
  | none => rw [hh] at hmap; simp at hmap
  | some w =>
    rw [hh] at hmap
    simp only [Option.map_some', Option.some.injEq] at hmap
    have hpi : p.1 = i := congrArg Prod.fst hmap
    have hwv : w = v := congrArg Prod.snd hmap
    refine ⟨p.2, ?_, by rw [hh, hwv]⟩
    rw [← hpi]
    exact indexedFrom_mem_get? chunks p hp

theorem hitAssignments_mem_of (cl : String → Option (List Rat))
    (chunks : List MemoryChunk) (i : Nat) (c : MemoryChunk) (v : List Rat)
    (hc : chunks.get? i = some c) (hh : chunkCacheHit cl c = some v) :
    (i, v) ∈ hitAssignments cl chunks := by
  unfold hitAssignments
  apply List.mem_filterMap.mpr
  exact ⟨(i, c), get?_indexedFrom_mem chunks i c hc, by simp [hh]⟩

theorem missingItems_mem (cl : String → Option (List Rat))
    (chunks : List MemoryChunk) (i : Nat) (c : MemoryChunk)
    (h : (i, c) ∈ missingItems cl chunks) :
    chunks.get? i = some c ∧ chunkCacheHit cl c = none := by
  unfold missingItems at h
  rcases List.mem_filter.mp h with ⟨hmem, hcond⟩
  refine ⟨indexedFrom_mem_get? chunks (i, c) hmem, ?_⟩
  exact Option.isNone_iff_eq_none.mp (by simpa using hcond)

theorem assignBatches_fst (prov : List MemoryChunk → List (List Rat))
    (missing : List (Nat × MemoryChunk)) :
    ∀ (bs : List (List MemoryChunk)) (cur : Nat) (q : Nat × List Rat),
      q ∈ assignBatches prov missing bs cur →
      ∃ pc ∈ missing, pc.1 = q.1 := by
  intro bs
  induction bs with
  | nil => intro cur q hq; simp [assignBatches] at hq
  | cons batch rest ih =>
    intro cur q hq
    simp only [assignBatches, List.mem_append] at hq
    rcases hq with hq | hq
    · rcases List.mem_filterMap.mp hq with ⟨i2, hi2, hmap⟩
      cases hm : missing.get? (cur + i2) with
      | none => rw [hm] at hmap; simp at hmap
      | some item =>
        rw [hm] at hmap
        simp only [Option.some.injEq] at hmap
        refine ⟨item, List.get?_mem hm, ?_⟩
        rw [← hmap]
    · exact ih _ q hq

theorem mapLookupLast_mem {β : Type} (l : List (String × β)) (k : String)
    (v : β) (h : mapLookupLast l k = some v) : (k, v) ∈ l := by
  unfold mapLookupLast at h
  cases hf : l.reverse.find? (fun p => p.1 == k) with
  | none => rw [hf] at h; simp at h
  | some p =>
    rw [hf] at h
    simp only [Option.map_some', Option.some.injEq] at h
    have hpk : p.1 = k := by
      have := List.find?_some hf
      simpa using this
    have hmem : p ∈ l := List.mem_reverse.mp (List.mem_of_find?_eq_some hf)
    have hpv : (k, v) = p := by
      obtain ⟨p1, p2⟩ := p
      simp only [] at hpk h
      rw [hpk, h]
    rw [hpv]
    exact hmem

theorem embedChunksInBatches_length (cl : String → Option (List Rat))
    (prov : List MemoryChunk → List (List Rat)) (chunks : List MemoryChunk) :
    (embedChunksInBatches cl prov chunks).length = chunks.length := by
  by_cases he : chunks.isEmpty
  · have h0 : chunks = [] := List.isEmpty_iff.mp he
    subst h0
    rfl
  · by_cases hm : (missingItems cl chunks).isEmpty
    · simp [embedChunksInBatches, he, hm, applyAssigns_length]
    · simp [embedChunksInBatches, he, hm, applyAssigns_length]

theorem embedChunksWithGenericBatch_length (cl : String → Option (List Rat))
    (cid : Nat → MemoryChunk → String)
    (bo : Option (List (String × List Rat)))
    (prov : List MemoryChunk → List (List Rat)) (chunks : List MemoryChunk) :
    (embedChunksWithGenericBatch cl cid bo prov chunks).length = chunks.length := by
  by_cases he : chunks.isEmpty
  · have h0 : chunks = [] := List.isEmpty_iff.mp he
    subst h0
    rfl
  · by_cases hm : (missingItems cl chunks).isEmpty
    · simp [embedChunksWithGenericBatch, he, hm, applyAssigns_length]
    · cases bo with
      | none =>
        simp [embedChunksWithGenericBatch, he, hm, embedChunksInBatches_length]
      | some byId =>
        simp [embedChunksWithGenericBatch, he, hm, applyAssigns_length]

theorem hitAssignments_agree (cl : String → Option (List Rat))
    (chunks : List MemoryChunk) (i : Nat) (c : MemoryChunk) (v : List Rat)
    (hc : chunks.get? i = some c) (hh : chunkCacheHit cl c = some v) :
    ∀ p ∈ hitAssignments cl chunks, p.1 = i → p.2 = v := by
  intro p hp hpi
  obtain ⟨p1, p2⟩ := p
  simp only [] at hpi
  subst hpi
  rcases hitAssignments_mem cl chunks p1 p2 hp with ⟨c2, hc2, hh2⟩
  rw [hc] at hc2
  have hcc : c = c2 := Option.some.inj hc2
  rw [← hcc] at hh2
  rw [hh] at hh2
  exact (Option.some.inj hh2).symm

theorem assignBatches_ne_of_hit (cl : String → Option (List Rat))
    (prov : List MemoryChunk → List (List Rat)) (chunks : List MemoryChunk)
    (i : Nat) (c : MemoryChunk) (v : List Rat)
    (bs : List (List MemoryChunk)) (cur : Nat)
    (hc : chunks.get? i = some c) (hh : chunkCacheHit cl c = some v) :
    ∀ q ∈ assignBatches prov (missingItems cl chunks) bs cur, q.1 ≠ i := by
  intro q hq hqi
  rcases assignBatches_fst prov _ bs cur q hq with ⟨pc, hpc, hpci⟩
  obtain ⟨p1, p2⟩ := pc
  simp only [] at hpci
  rw [hqi] at hpci
  subst hpci
  rcases missingItems_mem cl chunks p1 p2 hpc with ⟨hg, hn⟩
  rw [hc] at hg
  have hcc : c = p2 := Option.some.inj hg
  rw [← hcc] at hn
  rw [hn] at hh
  exact Option.noConfusion hh

theorem embedChunksInBatches_hit (cl : String → Option (List Rat))
    (prov : List MemoryChunk → List (List Rat)) (chunks : List MemoryChunk)
    (i : Nat) (c : MemoryChunk) (v : List Rat)
    (hc : chunks.get? i = some c) (hh : chunkCacheHit cl c = some v) :
    (embedChunksInBatches cl prov chunks).get? i = some v := by
  have hne : ¬ chunks.isEmpty = true := by
    intro he
    rw [List.isEmpty_iff.mp he] at hc
    simp at hc
  have hlen : i < chunks.length := get?_lt_length chunks i c hc
  have hmem : (i, v) ∈ hitAssignments cl chunks :=
    hitAssignments_mem_of cl chunks i c v hc hh
  have hagree := hitAssignments_agree cl chunks i c v hc hh
  unfold embedChunksInBatches
  rw [if_neg hne]
  simp only []
  by_cases hm : (missingItems cl chunks).isEmpty
  · rw [if_pos hm]
    unfold applyAssigns
    exact foldlSet_get_of_assigned i v _ _ hmem hagree
      (by rw [List.length_replicate]; exact hlen)
  · rw [if_neg hm]
    unfold applyAssigns
    apply foldlSet_get_of_assigned i v _ _ (List.mem_append_left _ hmem)
    · intro p hp hpi
      rcases List.mem_append.mp hp with hp1 | hp2
      · exact hagree p hp1 hpi
      · exact absurd hpi (assignBatches_ne_of_hit cl prov chunks i c v _ _ hc hh p hp2)
    · rw [List.length_replicate]
      exact hlen

theorem genericAssigns_mem (cid : Nat → MemoryChunk → String)
    (missing : List (Nat × MemoryChunk)) (byId : List (String × List Rat))
    (q : Nat × List Rat)
    (hq : q ∈ byId.filterMap (fun r =>
      match mapLookupLast (missing.map (fun p => (cid p.1 p.2, (p.1, p.2.hash)))) r.1 with
      | some ih2 => some (ih2.1, r.2)
      | none => none)) :
    ∃ pc ∈ missing, pc.1 = q.1 ∧ (cid pc.1 pc.2) ∈ byId.map Prod.fst := by
  rcases List.mem_filterMap.mp hq with ⟨r, hr, hmap⟩
  cases hml : mapLookupLast
      (missing.map (fun p => (cid p.1 p.2, (p.1, p.2.hash)))) r.1 with
  | none => rw [hml] at hmap; simp at hmap
  | some ih2 =>
    rw [hml] at hmap
    simp only [Option.some.injEq] at hmap
    have hkv := mapLookupLast_mem _ _ _ hml
    rcases List.mem_map.mp hkv with ⟨pc, hpc, hfeq⟩
    have hpc1 : pc.1 = ih2.1 := by
      have := congrArg (fun x => x.2.1) hfeq
      simpa using this
    have hkey : cid pc.1 pc.2 = r.1 := by
      have := congrArg Prod.fst hfeq
      simpa using this
    refine ⟨pc, hpc, ?_, ?_⟩
    · rw [hpc1]
      exact congrArg Prod.fst hmap
    · rw [hkey]
      exact List.mem_map_of_mem Prod.fst hr

theorem missingItems_det (cl : String → Option (List Rat))
    (chunks : List MemoryChunk) (i : Nat) (c c2 : MemoryChunk)
    (h1 : (i, c) ∈ missingItems cl chunks)
    (h2 : (i, c2) ∈ missingItems cl chunks) : c = c2 := by
  have hg1 := (missingItems_mem cl chunks i c h1).1
  have hg2 := (missingItems_mem cl chunks i c2 h2).1
  rw [hg1] at hg2
  exact Option.some.inj hg2

theorem embedChunksWithGenericBatch_hit (cl : String → Option (List Rat))
    (cid : Nat → MemoryChunk → String)
    (bo : Option (List (String × List Rat)))
    (prov : List MemoryChunk → List (List Rat)) (chunks : List MemoryChunk)
    (i : Nat) (c : MemoryChunk) (v : List Rat)
    (hc : chunks.get? i = some c) (hh : chunkCacheHit cl c = some v) :
    (embedChunksWithGenericBatch cl cid bo prov chunks).get? i = some v := by
  have hne : ¬ chunks.isEmpty = true := by
    intro he
    rw [List.isEmpty_iff.mp he] at hc
    simp at hc
  have hlen : i < chunks.length := get?_lt_length chunks i c hc
  have hmem : (i, v) ∈ hitAssignments cl chunks :=
    hitAssignments_mem_of cl chunks i c v hc hh
  have hagree := hitAssignments_agree cl chunks i c v hc hh
  unfold embedChunksWithGenericBatch
  rw [if_neg hne]
  simp only []
  by_cases hm : (missingItems cl chunks).isEmpty
  · rw [if_pos hm]
    unfold applyAssigns
    exact foldlSet_get_of_assigned i v _ _ hmem hagree
      (by rw [List.length_replicate]; exact hlen)
  · rw [if_neg hm]
    cases bo with
    | none => exact embedChunksInBatches_hit cl prov chunks i c v hc hh
    | some byId =>
      unfold applyAssigns
      apply foldlSet_get_of_assigned i v _ _ (List.mem_append_left _ hmem)
      · intro p hp hpi
        rcases List.mem_append.mp hp with hp1 | hp2
        · exact hagree p hp1 hpi
        · rcases genericAssigns_mem cid (missingItems cl chunks) byId p hp2 with
            ⟨pc, hpc, hpi2, _⟩
          obtain ⟨p1, p2⟩ := pc
          simp only [] at hpi2
          rw [hpi] at hpi2
          subst hpi2
          rcases missingItems_mem cl chunks p1 p2 hpc with ⟨hg, hn⟩
          rw [hc] at hg
          have hcc : c = p2 := Option.some.inj hg
          rw [← hcc] at hn
          rw [hn] at hh
          exact Option.noConfusion hh
      · rw [List.length_replicate]
        exact hlen

theorem embedChunksWithGenericBatch_gap (cl : String → Option (List Rat))
    (cid : Nat → MemoryChunk → String) (byId : List (String × List Rat))
    (prov : List MemoryChunk → List (List Rat)) (chunks : List MemoryChunk)
    (i : Nat) (c : MemoryChunk)
    (hmiss : (i, c) ∈ missingItems cl chunks)
    (hnores : ∀ r ∈ byId, r.1 ≠ cid i c) :
    (embedChunksWithGenericBatch cl cid (some byId) prov chunks).get? i =
      some [] := by
  rcases missingItems_mem cl chunks i c hmiss with ⟨hg, hn⟩
  have hne : ¬ chunks.isEmpty = true := by
    intro he
    rw [List.isEmpty_iff.mp he] at hg
    simp at hg
  have hlen : i < chunks.length := get?_lt_length chunks i c hg
  have hmne : ¬ (missingItems cl chunks).isEmpty = true := by
    intro h
    rw [List.isEmpty_iff.mp h] at hmiss
    simp at hmiss
  unfold embedChunksWithGenericBatch
  rw [if_neg hne]
  simp only []
  rw [if_neg hmne]
  have hnoassign : ∀ p ∈ hitAssignments cl chunks ++
      byId.filterMap (fun r =>
        match mapLookupLast ((missingItems cl chunks).map
            (fun p => (cid p.1 p.2, (p.1, p.2.hash)))) r.1 with
        | some ih2 => some (ih2.1, r.2)
        | none => none), p.1 ≠ i := by
    intro p hp hpi
    rcases List.mem_append.mp hp with hp1 | hp2
    · obtain ⟨p1, p2⟩ := p
      simp only [] at hpi
      subst hpi
      rcases hitAssignments_mem cl chunks p1 p2 hp1 with ⟨c2, hc2, hh2⟩
      rw [hg] at hc2
      have hcc : c = c2 := Option.some.inj hc2
      rw [← hcc] at hh2
      rw [hn] at hh2
      exact Option.noConfusion hh2
    · rcases genericAssigns_mem cid (missingItems cl chunks) byId p hp2 with
        ⟨pc, hpc, hpi2, hkey⟩
      obtain ⟨p1, p2⟩ := pc
      simp only [] at hpi2 hkey
      rw [hpi] at hpi2
      rw [hpi2] at hpc hkey
      have hcc : c = p2 := missingItems_det cl chunks i c p2 hmiss hpc
      rw [← hcc] at hkey
      rcases List.mem_map.mp hkey with ⟨r, hr, hr1⟩
      exact hnores r hr hr1
  unfold applyAssigns
  rw [foldlSet_get_of_not_mem i _ _ hnoassign]
  rw [List.get?_eq_getElem?, List.getElem?_eq_getElem (by simpa using hlen)]
  simp

/-- C10: for every `embedChunks` call over `N` chunks that returns normally,
the result has exactly `N` entries aligned by index: a cache hit lands at
its chunk's index on every path, and on the remote-batch path a missing
chunk whose `custom_id` has no provider result maps to the empty vector
rather than to an absent entry. -/
theorem embedChunks_spec :
    (∀ (be es hcl : Bool) (cl : String → Option (List Rat))
        (cid : Nat → MemoryChunk → String)
        (bo : Option (List (String × List Rat)))
        (prov : List MemoryChunk → List (List Rat))
        (chunks : List MemoryChunk),
      (embedChunks be es hcl cl cid bo prov chunks).length = chunks.length) ∧
    (∀ (be es hcl : Bool) (cl : String → Option (List Rat))
        (cid : Nat → MemoryChunk → String)
        (bo : Option (List (String × List Rat)))
        (prov : List MemoryChunk → List (List Rat))
        (chunks : List MemoryChunk) (i : Nat) (c : MemoryChunk) (v : List Rat),
      chunks.get? i = some c → chunkCacheHit cl c = some v →
      (embedChunks be es hcl cl cid bo prov chunks).get? i = some v) ∧
    (∀ (cl : String → Option (List Rat)) (cid : Nat → MemoryChunk → String)
        (byId : List (String × List Rat))
        (prov : List MemoryChunk → List (List Rat))
        (chunks : List MemoryChunk) (i : Nat) (c : MemoryChunk),
      (i, c) ∈ missingItems cl chunks →
      (∀ r ∈ byId, r.1 ≠ cid i c) →
      (embedChunks true true true cl cid (some byId) prov chunks).get? i =
        some []) := by
  refine ⟨?_, ?_, ?_⟩
  · intro be es hcl cl cid bo prov chunks
    unfold embedChunks
    by_cases hb : (be && es) = true
    · rw [if_pos hb]
      cases hcl with
      | true => exact embedChunksWithGenericBatch_length cl cid bo prov chunks
      | false => exact embedChunksInBatches_length cl prov chunks
    · rw [if_neg hb]
      exact embedChunksInBatches_length cl prov chunks
  · intro be es hcl cl cid bo prov chunks i c v hc hh
    unfold embedChunks
    by_cases hb : (be && es) = true
    · rw [if_pos hb]
      cases hcl with
      | true => exact embedChunksWithGenericBatch_hit cl cid bo prov chunks i c v hc hh
      | false => exact embedChunksInBatches_hit cl prov chunks i c v hc hh
    · rw [if_neg hb]
      exact embedChunksInBatches_hit cl prov chunks i c v hc hh
  · intro cl cid byId prov chunks i c hmiss hnores
    show (embedChunksWithGenericBatch cl cid (some byId) prov chunks).get? i =
      some []
    exact embedChunksWithGenericBatch_gap cl cid byId prov chunks i c hmiss hnores

/-- Witness for C10: two chunks, the first a cache hit, the second missing
with an empty remote-batch result: the output is aligned, the hit at index
0, the gap at index 1 as the empty vector, with overall length 2. -/
theorem embedChunks_spec_witness :
    (embedChunks true true true
        (fun h => if h = "h0" then some [1/2] else none)
        (fun i c => c.hash ++ ":" ++ toString i) (some []) (fun _ => [])
        [⟨"h0", 3, 1, 2⟩, ⟨"h1", 4, 3, 4⟩]).length = 2 ∧
    (embedChunks true true true
        (fun h => if h = "h0" then some [1/2] else none)
        (fun i c => c.hash ++ ":" ++ toString i) (some []) (fun _ => [])
        [⟨"h0", 3, 1, 2⟩, ⟨"h1", 4, 3, 4⟩]).get? 0 = some [1/2] ∧
    (embedChunks true true true
        (fun h => if h = "h0" then some [1/2] else none)
        (fun i c => c.hash ++ ":" ++ toString i) (some []) (fun _ => [])
        [⟨"h0", 3, 1, 2⟩, ⟨"h1", 4, 3, 4⟩]).get? 1 = some [] :=
  ⟨embedChunks_spec.1 true true true _ _ _ _ _,
   embedChunks_spec.2.1 true true true _ _ _ _ _ 0 ⟨"h0", 3, 1, 2⟩ [1/2]
      rfl (by simp [chunkCacheHit]),
   embedChunks_spec.2.2 (fun h => if h = "h0" then some [1/2] else none)
      (fun i c => c.hash ++ ":" ++ toString i) [] (fun _ => [])
      [⟨"h0", 3, 1, 2⟩, ⟨"h1", 4, 3, 4⟩] 1 ⟨"h1", 4, 3, 4⟩
      (by simp [missingItems, indexedFrom, chunkCacheHit])
      (by intro r hr; simp at hr)⟩

end OpenClaw
